import Mathlib

/-! # SHA-256 (`sha256.c`): embedding and verification

The C program hashes one file: `nextblock` frames the byte stream into padded 64-byte
blocks, `nexthash` folds each block into the eight-word hash state, and `main` drives
the two and prints the state in hexadecimal.

Conventions of the embedding:

* `uint32_t` / `uint64_t` values are natural numbers, reduced with `u32` / `u64` wherever
  the C arithmetic wraps;
* a byte is a `Fin 256`; the `BLOCK` union is its 64 bytes of memory, and the views
  `threetwo[i]` / `sixfour[i]` load and store 4 / 8 bytes in the byte order of the host,
  which is a parameter (`le = true` for a little-endian host);
* the unread part of the input file is a list of bytes, and `fread` delivers as many of the
  requested bytes as remain;
* the `while` loop of `main` is bounded by a fuel argument counting calls of `nextblock`;
* a second framer, `nextblockShort`, takes its bytes from a source whose reads may return
  fewer bytes than requested;
* array accesses read 0 and write nothing outside an array; the twins `nexthashChecked`
  and `nextblockChecked` fail there instead.
-/

namespace Sha256

/-! ## Machine words -/

/-- Reduction to 32 bits: the value of an expression of type `uint32_t`. -/
def u32 (x : Nat) : Nat := x % 2 ^ 32

/-- Reduction to 64 bits: the value of an expression of type `uint64_t`. -/
def u64 (x : Nat) : Nat := x % 2 ^ 64

/-- A byte of memory or of the input file. -/
abbrev Byte := Fin 256

/-- Conversion of an integer to `uint8_t`. -/
def toByte (x : Nat) : Byte := ⟨x % 256, Nat.mod_lt x (by decide)⟩

/-! ## Section 4.2.2: the round constants -/

/-- The table `K` of `sha256.c`, its sixteen lines of four constants. -/
def K : List Nat :=
  [0x428a2f98, 0x71374491, 0xb5c0fbcf, 0xe9b5dba5] ++
  [0x3956c25b, 0x59f111f1, 0x923f82a4, 0xab1c5ed5] ++
  [0xd807aa98, 0x12835b01, 0x243185be, 0x550c7dc3] ++
  [0x72be5d74, 0x80deb1fe, 0x9bdc06a7, 0xc19bf174] ++
  [0xe49b69c1, 0xefbe4786, 0x0fc19dc6, 0x240ca1cc] ++
  [0x2de92c6f, 0x4a7484aa, 0x5cb0a9dc, 0x76f988da] ++
  [0x983e5152, 0xa831c66d, 0xb00327c8, 0xbf597fc7] ++
  [0xc6e00bf3, 0xd5a79147, 0x06ca6351, 0x14292967] ++
  [0x27b70a85, 0x2e1b2138, 0x4d2c6dfc, 0x53380d13] ++
  [0x650a7354, 0x766a0abb, 0x81c2c92e, 0x92722c85] ++
  [0xa2bfe8a1, 0xa81a664b, 0xc24b8b70, 0xc76c51a3] ++
  [0xd192e819, 0xd6990624, 0xf40e3585, 0x106aa070] ++
  [0x19a4c116, 0x1e376c08, 0x2748774c, 0x34b0bcb5] ++
  [0x391c0cb3, 0x4ed8aa4a, 0x5b9cca4f, 0x682e6ff3] ++
  [0x748f82ee, 0x78a5636f, 0x84c87814, 0x8cc70208] ++
  [0x90befffa, 0xa4506ceb, 0xbef9a3f7, 0xc67178f2]

/-! ## Section 4.1.2: the macros -/

/-- The C operator `~` on a `uint32_t`. -/
def NOT (x : Nat) : Nat := x ^^^ 0xffffffff

/-- Macro `Ch(x, y, z) ((x & y) ^ (~x & z))`. -/
def Ch (x y z : Nat) : Nat := (x &&& y) ^^^ (NOT x &&& z)

/-- Macro `Maj(x, y, z) ((x & y) ^ (x & z) ^ (y & z))`. -/
def Maj (x y z : Nat) : Nat := (x &&& y) ^^^ (x &&& z) ^^^ (y &&& z)

/-- Macro `SHR(x, n) (x >> n)`. -/
def SHR (x n : Nat) : Nat := x >>> n

/-- Macro `ROTR(x, n) ((x >> n) | (x << (32 - n)))`; the left shift of a `uint32_t`
drops the bits shifted out of the word. -/
def ROTR (x n : Nat) : Nat := (x >>> n) ||| u32 (x <<< (32 - n))

/-- Macro `Sig0(x)`. -/
def Sig0 (x : Nat) : Nat := ROTR x 2 ^^^ ROTR x 13 ^^^ ROTR x 22

/-- Macro `Sig1(x)`. -/
def Sig1 (x : Nat) : Nat := ROTR x 6 ^^^ ROTR x 11 ^^^ ROTR x 25

/-- Macro `sig0(x)`. -/
def sig0 (x : Nat) : Nat := ROTR x 7 ^^^ ROTR x 18 ^^^ SHR x 3

/-- Macro `sig1(x)`. -/
def sig1 (x : Nat) : Nat := ROTR x 17 ^^^ ROTR x 19 ^^^ SHR x 10

/-! ## Section 6.2.2: `nexthash` -/

/-- The working variables `a` .. `h` of `nexthash`. -/
structure Vars where
  a : Nat
  b : Nat
  c : Nat
  d : Nat
  e : Nat
  f : Nat
  g : Nat
  h : Nat
deriving DecidableEq, Repr

/-- All eight working variables are 32-bit values. -/
def Vars.ok (v : Vars) : Prop :=
  v.a < 2 ^ 32 ∧ v.b < 2 ^ 32 ∧ v.c < 2 ^ 32 ∧ v.d < 2 ^ 32 ∧
  v.e < 2 ^ 32 ∧ v.f < 2 ^ 32 ∧ v.g < 2 ^ 32 ∧ v.h < 2 ^ 32

/-- Body of the first loop: `W[t] = M[t]`. -/
def copyStep (M : List Nat) (W : List Nat) (t : Nat) : List Nat :=
  W.set t (M.getD t 0)

/-- Body of the second loop:
`W[t] = sig1(W[t-2]) + W[t-7] + sig0(W[t-15]) + W[t-16]`. -/
def schedStep (W : List Nat) (t : Nat) : List Nat :=
  W.set t (u32 (sig1 (W.getD (t - 2) 0) + W.getD (t - 7) 0 + sig0 (W.getD (t - 15) 0)
    + W.getD (t - 16) 0))

/-- Body of the third loop: one round on the working variables. -/
def roundStep (W : List Nat) (v : Vars) (t : Nat) : Vars :=
  let T1 := u32 (v.h + Sig1 v.e + Ch v.e v.f v.g + K.getD t 0 + W.getD t 0)
  let T2 := u32 (Sig0 v.a + Maj v.a v.b v.c)
  { h := v.g, g := v.f, f := v.e, e := u32 (v.d + T1),
    d := v.c, c := v.b, b := v.a, a := u32 (T1 + T2) }

/-- The array `W` of `nexthash` after its first two loops.  The local array is
uninitialised in C; every entry is written before it is read, the embedding starts from
zeros. -/
def schedule (M : List Nat) : List Nat :=
  (List.range' 16 48).foldl schedStep
    ((List.range 16).foldl (copyStep M) (List.replicate 64 0))

/-- The working variables loaded from `H[0]` .. `H[7]`. -/
def loadVars (H : List Nat) : Vars :=
  { a := H.getD 0 0, b := H.getD 1 0, c := H.getD 2 0, d := H.getD 3 0,
    e := H.getD 4 0, f := H.getD 5 0, g := H.getD 6 0, h := H.getD 7 0 }

/-- The statements `H[0] += a; ... H[7] += h;`. -/
def addVars (H : List Nat) (v : Vars) : List Nat :=
  [u32 (H.getD 0 0 + v.a), u32 (H.getD 1 0 + v.b), u32 (H.getD 2 0 + v.c),
   u32 (H.getD 3 0 + v.d), u32 (H.getD 4 0 + v.e), u32 (H.getD 5 0 + v.f),
   u32 (H.getD 6 0 + v.g), u32 (H.getD 7 0 + v.h)]

/-- The function `nexthash(M, H)`: the new contents of `H`. -/
def nexthash (M H : List Nat) : List Nat :=
  addVars H ((List.range 64).foldl (roundStep (schedule M)) (loadVars H))

/-! ## The `BLOCK` union and the byte-order functions -/

/-- The four bytes of a 32-bit value, most significant first. -/
def bytes32 (x : Nat) : List Byte :=
  [toByte (x / 2 ^ 24), toByte (x / 2 ^ 16), toByte (x / 2 ^ 8), toByte x]

/-- The eight bytes of a 64-bit value, most significant first. -/
def bytes64 (x : Nat) : List Byte :=
  [toByte (x / 2 ^ 56), toByte (x / 2 ^ 48), toByte (x / 2 ^ 40), toByte (x / 2 ^ 32),
   toByte (x / 2 ^ 24), toByte (x / 2 ^ 16), toByte (x / 2 ^ 8), toByte x]

/-- The number whose digits in base 256, most significant first, are the given bytes. -/
def ofBytes (bs : List Byte) : Nat := bs.foldl (fun acc b => acc * 256 + b.val) 0

/-- How a value lies in the memory of the host: most significant byte first on a
big-endian host, last on a little-endian one. -/
def hostOrder (le : Bool) (bs : List Byte) : List Byte := if le then bs.reverse else bs

/-- Reading `M->threetwo[i]`. -/
def load32 (le : Bool) (M : List Byte) (i : Nat) : Nat :=
  ofBytes (hostOrder le ((M.drop (4 * i)).take 4))

/-- The assignment `M->threetwo[i] = x`. -/
def store32 (le : Bool) (M : List Byte) (i : Nat) (x : Nat) : List Byte :=
  M.take (4 * i) ++ hostOrder le (bytes32 x) ++ M.drop (4 * i + 4)

/-- The assignment `M->sixfour[i] = x`. -/
def store64 (le : Bool) (M : List Byte) (i : Nat) (x : Nat) : List Byte :=
  M.take (8 * i) ++ hostOrder le (bytes64 x) ++ M.drop (8 * i + 8)

/-- Byte reversal of a 32-bit value. -/
def bswap32 (x : Nat) : Nat := ofBytes (bytes32 x).reverse

/-- Byte reversal of a 64-bit value. -/
def bswap64 (x : Nat) : Nat := ofBytes (bytes64 x).reverse

/-- The function `be32toh` of `<endian.h>`: big-endian to host order, the identity on a
big-endian host and a byte swap on a little-endian one. -/
def be32toh (le : Bool) (x : Nat) : Nat := if le then bswap32 x else x

/-- The function `htobe64` of `<endian.h>`: host order to big-endian. -/
def htobe64 (le : Bool) (x : Nat) : Nat := if le then bswap64 x else x

/-- The array `M.threetwo` as `nexthash` reads it. -/
def threetwo (le : Bool) (M : List Byte) : List Nat := (List.range 16).map (load32 le M)

/-! ## Section 5.1.1: `nextblock` -/

/-- The type `PADFLAG`. -/
inductive PADFLAG where
  | READ
  | PAD0
  | FINISH
deriving DecidableEq, Repr

/-- What the pointer arguments of `nextblock` point to: the block, the unread rest of the
file, the bit counter and the padding phase. -/
structure Framer where
  M : List Byte
  infile : List Byte
  nobits : Nat
  status : PADFLAG
deriving DecidableEq, Repr

/-- The call `fread(M->eight, 1, n, infile)`: the number of bytes read, the block with its
first bytes overwritten by them, and the rest of the file. -/
def fread (M : List Byte) (n : Nat) (infile : List Byte) : Nat × List Byte × List Byte :=
  ((infile.take n).length, infile.take n ++ M.drop (infile.take n).length, infile.drop n)

/-- The loops `for (i = lo; i < hi; i++) M->eight[i] = 0x00;`. -/
def zeroLoop (M : List Byte) (lo hi : Nat) : List Byte :=
  (List.range' lo (hi - lo)).foldl (fun B i => B.set i 0) M

/-- The `default` case of the switch in `nextblock`, after `fread` has returned
`nobytesread` and left the block `M`. -/
def readCase (le : Bool) (M : List Byte) (nobytesread : Nat) (infile : List Byte)
    (nobits : Nat) : Framer :=
  let nobits := u64 (nobits + u64 (8 * u64 nobytesread))
  if nobytesread < 56 then
    { M := store64 le (zeroLoop (M.set nobytesread 0x80) (nobytesread + 1) 56) 7
        (htobe64 le nobits),
      infile := infile, nobits := nobits, status := PADFLAG.FINISH }
  else if nobytesread < 64 then
    { M := zeroLoop (M.set nobytesread 0x80) (nobytesread + 1) 64,
      infile := infile, nobits := nobits, status := PADFLAG.PAD0 }
  else
    { M := M, infile := infile, nobits := nobits, status := PADFLAG.READ }

/-- The switch statement of `nextblock`; `none` is the `return 0` of case `FINISH`.  The
block of the result is in the byte order of the stream. -/
def nextblockSwitch (le : Bool) (s : Framer) : Option Framer :=
  match s.status with
  | PADFLAG.FINISH => none
  | PADFLAG.PAD0 =>
    some { s with M := store64 le (zeroLoop s.M 0 56) 7 (htobe64 le s.nobits),
                  status := PADFLAG.FINISH }
  | PADFLAG.READ =>
    let r := fread s.M 64 s.infile
    some (readCase le r.2.1 r.1 r.2.2 s.nobits)

/-- The last loop of `nextblock`: `M->threetwo[i] = be32toh(M->threetwo[i])`. -/
def toHostLoop (le : Bool) (M : List Byte) : List Byte :=
  (List.range 16).foldl (fun B i => store32 le B i (be32toh le (load32 le B i))) M

/-- The function `nextblock`: its return value and what its arguments point to
afterwards. -/
def nextblock (le : Bool) (s : Framer) : Nat × Framer :=
  match nextblockSwitch le s with
  | none => (0, s)
  | some s' => (1, { s' with M := toHostLoop le s'.M })

/-! ## `main` -/

/-- The initial hash value of section 5.3.3, the array `H` of `main`. -/
def H0 : List Nat := [
  0x6a09e667, 0xbb67ae85, 0x3c6ef372, 0xa54ff53a,
  0x510e527f, 0x9b05688c, 0x1f83d9ab, 0x5be0cd19]

/-- The variables of `main` before its loop: the block `M` is uninitialised (any 64
bytes), the file is freshly opened. -/
def start (M : List Byte) (file : List Byte) : Framer :=
  { M := M, infile := file, nobits := 0, status := PADFLAG.READ }

/-- The loop `while (nextblock(&M, infile, &nobits, &status)) nexthash(M.threetwo, H);`
run for at most `fuel` calls of `nextblock`; `none` when the fuel does not reach the call
that returns 0. -/
def hashLoop (le : Bool) : Nat → Framer → List Nat → Option (Framer × List Nat)
  | 0, _, _ => none
  | fuel + 1, s, H =>
    if (nextblock le s).1 = 0 then some ((nextblock le s).2, H)
    else hashLoop le fuel (nextblock le s).2 (nexthash (threetwo le (nextblock le s).2.M) H)

/-- The character `printf` writes for one hexadecimal digit with the conversion `x`. -/
def hexDigit (d : Nat) : Char :=
  if d < 10 then Char.ofNat (48 + d) else Char.ofNat (87 + d)

/-- The digits of the conversion `%x`, most significant first, without leading zeros and
at least one; `fuel` bounds the number of digits. -/
def hexDigits : Nat → Nat → List Char → List Char
  | 0, _, acc => acc
  | fuel + 1, x, acc =>
    if x < 16 then hexDigit x :: acc else hexDigits fuel (x / 16) (hexDigit (x % 16) :: acc)

/-- The output of `printf("%08" PRIx32, x)`: the digits of the 32-bit value `x` (at most
eight), padded with zeros on the left to the field width 8. -/
def printf08x (x : Nat) : List Char :=
  List.replicate (8 - (hexDigits 8 (u32 x) []).length) '0' ++ hexDigits 8 (u32 x) []

/-- The printing loop of `main`: `for (int i = 0; i < 8; i++) printf("%08" PRIx32, H[i]);`. -/
def printHash (H : List Nat) : List Char :=
  (List.range 8).foldl (fun out i => out ++ printf08x (H.getD i 0)) []

/-- The final hash state of `main` on an opened file. -/
def finalHash (le : Bool) (M : List Byte) (file : List Byte) (fuel : Nat) : Option (List Nat) :=
  (hashLoop le fuel (start M file) H0).map Prod.snd

/-- The standard output of `main` on an opened file: the digest and a newline. -/
def main (le : Bool) (M : List Byte) (file : List Byte) (fuel : Nat) : Option String :=
  (finalHash le M file fuel).map (fun H => String.mk (printHash H ++ ['\n']))

/-- The blocks `nextblock` hands out until it returns 0, each as the switch statement
leaves it, before the conversion to host order. -/
def wireBlocks (le : Bool) : Nat → Framer → Option (List (List Byte))
  | 0, _ => none
  | fuel + 1, s =>
    match nextblockSwitch le s with
    | none => some []
    | some w => (wireBlocks le fuel (nextblock le s).2).map (fun bs => w.M :: bs)

/-! ## A source whose reads may come up short -/

/-- The switch statement of `nextblock` when the call of `fread` delivers at most `k`
bytes although 64 are requested; with `k = 64` this is `nextblockSwitch`. -/
def nextblockSwitchShort (le : Bool) (k : Nat) (s : Framer) : Option Framer :=
  match s.status with
  | PADFLAG.FINISH => none
  | PADFLAG.PAD0 =>
    some { s with M := store64 le (zeroLoop s.M 0 56) 7 (htobe64 le s.nobits),
                  status := PADFLAG.FINISH }
  | PADFLAG.READ =>
    let r := fread s.M (min 64 k) s.infile
    some (readCase le r.2.1 r.1 r.2.2 s.nobits)

/-- The function `nextblock` when its read delivers at most `k` bytes. -/
def nextblockShort (le : Bool) (k : Nat) (s : Framer) : Nat × Framer :=
  match nextblockSwitchShort le k s with
  | none => (0, s)
  | some s' => (1, { s' with M := toHostLoop le s'.M })

/-- The loop of `main` on a source whose successive reads deliver at most the numbers of
bytes listed in `sched`, and are full once the list is used up.  Only a call in phase
`READ` reads. -/
def hashLoopShort (le : Bool) : Nat → List Nat → Framer → List Nat → Option (Framer × List Nat)
  | 0, _, _, _ => none
  | fuel + 1, sched, s, H =>
    if (nextblockShort le (sched.headD 64) s).1 = 0 then
      some ((nextblockShort le (sched.headD 64) s).2, H)
    else
      hashLoopShort le fuel (if s.status = PADFLAG.READ then sched.tail else sched)
        (nextblockShort le (sched.headD 64) s).2
        (nexthash (threetwo le (nextblockShort le (sched.headD 64) s).2.M) H)

/-- The bytes of the file up to and including the first read that delivers fewer than 64
bytes, when the successive reads deliver at most the numbers of bytes listed in `sched`. -/
def readUntilShort : List Nat → List Byte → List Byte
  | [], file => file
  | k :: sched, file =>
    if (file.take (min 64 k)).length < 64 then file.take (min 64 k)
    else file.take 64 ++ readUntilShort sched (file.drop 64)

/-! ## Checked array accesses

The functions above read outside an array as 0 and ignore a write outside it.  Their
twins below do the same accesses with C `int` indices and give `none` as soon as one
index is outside its array. -/

/-- Reading `a[i]`, `none` when `i` is not an index of the array. -/
def readAt {α : Type} (a : List α) (i : Int) : Option α :=
  if 0 ≤ i then a[i.toNat]? else none

/-- The assignment `a[i] = v`, `none` when `i` is not an index of the array. -/
def writeAt {α : Type} (a : List α) (i : Int) (v : α) : Option (List α) :=
  if 0 ≤ i ∧ i.toNat < a.length then some (a.set i.toNat v) else none

/-- Body of the first loop of `nexthash`, checked. -/
def copyStepChecked (M W : List Nat) (t : Nat) : Option (List Nat) := do
  let m ← readAt M (t : Int)
  writeAt W (t : Int) m

/-- Body of the second loop of `nexthash`, checked. -/
def schedStepChecked (W : List Nat) (t : Nat) : Option (List Nat) := do
  let w2 ← readAt W ((t : Int) - 2)
  let w7 ← readAt W ((t : Int) - 7)
  let w15 ← readAt W ((t : Int) - 15)
  let w16 ← readAt W ((t : Int) - 16)
  writeAt W (t : Int) (u32 (sig1 w2 + w7 + sig0 w15 + w16))

/-- Body of the third loop of `nexthash`, checked. -/
def roundStepChecked (W : List Nat) (v : Vars) (t : Nat) : Option Vars := do
  let k ← readAt K (t : Int)
  let w ← readAt W (t : Int)
  let T1 := u32 (v.h + Sig1 v.e + Ch v.e v.f v.g + k + w)
  let T2 := u32 (Sig0 v.a + Maj v.a v.b v.c)
  pure { h := v.g, g := v.f, f := v.e, e := u32 (v.d + T1),
         d := v.c, c := v.b, b := v.a, a := u32 (T1 + T2) }

/-- The statement `H[i] += x`, checked. -/
def addAt (H : List Nat) (i : Int) (x : Nat) : Option (List Nat) := do
  let h ← readAt H i
  writeAt H i (u32 (h + x))

/-- The array `W` of `nexthash` after its first two loops, checked. -/
def scheduleChecked (M : List Nat) : Option (List Nat) :=
  ((List.range 16).foldlM (copyStepChecked M) (List.replicate 64 0)).bind
    (fun W0 => (List.range' 16 48).foldlM schedStepChecked W0)

/-- Loading the working variables from `H[0]` .. `H[7]`, checked. -/
def loadVarsChecked (H : List Nat) : Option Vars :=
  (readAt H 0).bind fun a =>
  (readAt H 1).bind fun b =>
  (readAt H 2).bind fun c =>
  (readAt H 3).bind fun d =>
  (readAt H 4).bind fun e =>
  (readAt H 5).bind fun f =>
  (readAt H 6).bind fun g =>
  (readAt H 7).bind fun h =>
  some { a := a, b := b, c := c, d := d, e := e, f := f, g := g, h := h }

/-- The statements `H[0] += a; ... H[7] += h;`, checked. -/
def addVarsChecked (H : List Nat) (v : Vars) : Option (List Nat) :=
  (addAt H 0 v.a).bind fun H1 =>
  (addAt H1 1 v.b).bind fun H2 =>
  (addAt H2 2 v.c).bind fun H3 =>
  (addAt H3 3 v.d).bind fun H4 =>
  (addAt H4 4 v.e).bind fun H5 =>
  (addAt H5 5 v.f).bind fun H6 =>
  (addAt H6 6 v.g).bind fun H7 =>
  addAt H7 7 v.h

/-- The function `nexthash` with every access to `W`, `K`, `M` and `H` checked. -/
def nexthashChecked (M H : List Nat) : Option (List Nat) :=
  (scheduleChecked M).bind fun W =>
  (loadVarsChecked H).bind fun v0 =>
  ((List.range 64).foldlM (roundStepChecked W) v0).bind fun v =>
  addVarsChecked H v

/-- The zeroing loops of `nextblock`, checked. -/
def zeroLoopChecked (M : List Byte) (lo hi : Nat) : Option (List Byte) :=
  (List.range' lo (hi - lo)).foldlM (fun B (i : Nat) => writeAt B (i : Int) 0) M

/-- The assignment `M->sixfour[i] = x`, checked: its eight bytes lie in the block. -/
def store64Checked (le : Bool) (M : List Byte) (i : Nat) (x : Nat) : Option (List Byte) :=
  if 8 * i + 8 ≤ M.length then some (store64 le M i x) else none

/-- Reading `M->threetwo[i]`, checked: its four bytes lie in the block. -/
def load32Checked (le : Bool) (M : List Byte) (i : Nat) : Option Nat :=
  if 4 * i + 4 ≤ M.length then some (load32 le M i) else none

/-- The assignment `M->threetwo[i] = x`, checked. -/
def store32Checked (le : Bool) (M : List Byte) (i : Nat) (x : Nat) : Option (List Byte) :=
  if 4 * i + 4 ≤ M.length then some (store32 le M i x) else none

/-- The call `fread(M->eight, 1, n, infile)`, checked: the `n` bytes it may write lie in
the block. -/
def freadChecked (M : List Byte) (n : Nat) (infile : List Byte) :
    Option (Nat × List Byte × List Byte) :=
  if n ≤ M.length then some (fread M n infile) else none

/-- The `default` case of the switch, checked. -/
def readCaseChecked (le : Bool) (M : List Byte) (nobytesread : Nat) (infile : List Byte)
    (nobits : Nat) : Option Framer :=
  let nobits := u64 (nobits + u64 (8 * u64 nobytesread))
  if nobytesread < 56 then do
    let M1 ← writeAt M (nobytesread : Int) 0x80
    let M2 ← zeroLoopChecked M1 (nobytesread + 1) 56
    let M3 ← store64Checked le M2 7 (htobe64 le nobits)
    pure { M := M3, infile := infile, nobits := nobits, status := PADFLAG.FINISH }
  else if nobytesread < 64 then do
    let M1 ← writeAt M (nobytesread : Int) 0x80
    let M2 ← zeroLoopChecked M1 (nobytesread + 1) 64
    pure { M := M2, infile := infile, nobits := nobits, status := PADFLAG.PAD0 }
  else
    pure { M := M, infile := infile, nobits := nobits, status := PADFLAG.READ }

/-- The last loop of `nextblock`, checked. -/
def toHostLoopChecked (le : Bool) (M : List Byte) : Option (List Byte) :=
  (List.range 16).foldlM
    (fun B i => do
      let x ← load32Checked le B i
      store32Checked le B i (be32toh le x)) M

/-- The function `nextblock` with every access to the block checked. -/
def nextblockChecked (le : Bool) (s : Framer) : Option (Nat × Framer) :=
  match s.status with
  | PADFLAG.FINISH => some (0, s)
  | PADFLAG.PAD0 => do
    let M1 ← zeroLoopChecked s.M 0 56
    let M2 ← store64Checked le M1 7 (htobe64 le s.nobits)
    let M3 ← toHostLoopChecked le M2
    pure (1, { s with M := M3, status := PADFLAG.FINISH })
  | PADFLAG.READ => do
    let r ← freadChecked s.M 64 s.infile
    let w ← readCaseChecked le r.2.1 r.1 r.2.2 s.nobits
    let M3 ← toHostLoopChecked le w.M
    pure (1, { w with M := M3 })

/-! ## The algorithm as the specification words it -/

namespace Spec

/-- The number below `2 ^ k` whose bit `i` is `f i`. -/
def ofBits (f : Nat → Bool) : Nat → Nat
  | 0 => 0
  | k + 1 => ofBits f k + (if f k then 2 ^ k else 0)

/-- Rotate right on 32-bit width: bit `i` of the result is bit `(i + n) mod 32` of `x`. -/
def rotr (x n : Nat) : Nat := ofBits (fun i => x.testBit ((i + n) % 32)) 32

/-- Logical shift right on 32-bit width: bit `i` of the result is bit `i + n` of `x`, and
zeros enter from the left. -/
def shr (x n : Nat) : Nat := ofBits (fun i => decide (i + n < 32) && x.testBit (i + n)) 32

/-- Complement on 32-bit width. -/
def compl (x : Nat) : Nat := ofBits (fun i => !x.testBit i) 32

/-- `sig0(x) = rotr(x,7) xor rotr(x,18) xor shr(x,3)`. -/
def sig0 (x : Nat) : Nat := rotr x 7 ^^^ rotr x 18 ^^^ shr x 3

/-- `sig1(x) = rotr(x,17) xor rotr(x,19) xor shr(x,10)`. -/
def sig1 (x : Nat) : Nat := rotr x 17 ^^^ rotr x 19 ^^^ shr x 10

/-- `Sig0(x) = rotr(x,2) ^ rotr(x,13) ^ rotr(x,22)`. -/
def Sig0 (x : Nat) : Nat := rotr x 2 ^^^ rotr x 13 ^^^ rotr x 22

/-- `Sig1(x) = rotr(x,6) ^ rotr(x,11) ^ rotr(x,25)`. -/
def Sig1 (x : Nat) : Nat := rotr x 6 ^^^ rotr x 11 ^^^ rotr x 25

/-- `Ch(x,y,z) = (x & y) ^ (~x & z)`. -/
def Ch (x y z : Nat) : Nat := (x &&& y) ^^^ (compl x &&& z)

/-- `Maj(x,y,z) = (x & y) ^ (x & z) ^ (y & z)`. -/
def Maj (x y z : Nat) : Nat := (x &&& y) ^^^ (x &&& z) ^^^ (y &&& z)

/-- The message schedule: `W[t] = M[t]` for `t < 16`, and for `t ≥ 16`
`W[t] = sig1(W[t-2]) + W[t-7] + sig0(W[t-15]) + W[t-16]` modulo `2 ^ 32`. -/
def W (M : List Nat) (t : Nat) : Nat :=
  if h : t < 16 then M.getD t 0
  else (sig1 (W M (t - 2)) + W M (t - 7) + sig0 (W M (t - 15)) + W M (t - 16)) % 2 ^ 32
termination_by t
decreasing_by all_goals omega

/-- Round `t`: `T1 = h + Sig1(e) + Ch(e,f,g) + K[t] + W[t]`, `T2 = Sig0(a) + Maj(a,b,c)`,
then `h←g, g←f, f←e, e←d+T1, d←c, c←b, b←a, a←T1+T2`, all modulo `2 ^ 32`. -/
def round (M : List Nat) (t : Nat) (v : Vars) : Vars :=
  let T1 := (v.h + Sig1 v.e + Ch v.e v.f v.g + K.getD t 0 + W M t) % 2 ^ 32
  let T2 := (Sig0 v.a + Maj v.a v.b v.c) % 2 ^ 32
  { a := (T1 + T2) % 2 ^ 32, b := v.a, c := v.b, d := v.c,
    e := (v.d + T1) % 2 ^ 32, f := v.e, g := v.f, h := v.g }

/-- The working variables after rounds `0 .. n - 1`. -/
def rounds (M : List Nat) : Nat → Vars → Vars
  | 0, v => v
  | n + 1, v => round M n (rounds M n v)

/-- The compression function: 64 rounds from `a..h = H[0..7]`, then
`H[i] := H[i] + (a..h)[i]` modulo `2 ^ 32`. -/
def compress (H M : List Nat) : List Nat :=
  let v := rounds M 64
    { a := H.getD 0 0, b := H.getD 1 0, c := H.getD 2 0, d := H.getD 3 0,
      e := H.getD 4 0, f := H.getD 5 0, g := H.getD 6 0, h := H.getD 7 0 }
  [(H.getD 0 0 + v.a) % 2 ^ 32, (H.getD 1 0 + v.b) % 2 ^ 32, (H.getD 2 0 + v.c) % 2 ^ 32,
   (H.getD 3 0 + v.d) % 2 ^ 32, (H.getD 4 0 + v.e) % 2 ^ 32, (H.getD 5 0 + v.f) % 2 ^ 32,
   (H.getD 6 0 + v.g) % 2 ^ 32, (H.getD 7 0 + v.h) % 2 ^ 32]

/-- The 8-byte big-endian encoding of `x`. -/
def be64 (x : Nat) : List Byte :=
  (List.range 8).map (fun j => toByte (x / 256 ^ (7 - j)))

/-- The number of zero bytes of the padding of a message of `n` bytes. -/
def zeros (n : Nat) : Nat := (119 - n % 64) % 64

/-- The padded message whose data is `m` and whose length field encodes `bits`. -/
def padWith (bits : Nat) (m : List Byte) : List Byte :=
  m ++ [0x80] ++ List.replicate (zeros m.length) 0 ++ be64 bits

/-- The padding rule of FIPS 180-4, section 5.1.1. -/
def pad (m : List Byte) : List Byte := padWith (8 * m.length) m

/-- The consecutive 64-byte blocks of a byte sequence. -/
def blocks (p : List Byte) : List (List Byte) :=
  (List.range (p.length / 64)).map (fun i => (p.drop (64 * i)).take 64)

/-- A 64-byte block read as sixteen big-endian 32-bit words. -/
def beWords (B : List Byte) : List Nat :=
  (List.range 16).map (fun i => ofBytes ((B.drop (4 * i)).take 4))

/-- SHA-256: the left fold of the compression function over the blocks of the padded
message, from the initial hash value. -/
def sha256 (m : List Byte) : List Nat :=
  (blocks (pad m)).foldl (fun H B => compress H (beWords B)) H0

/-- The value of a string of lowercase hexadecimal digits. -/
def readHex (cs : List Char) : Nat :=
  cs.foldl (fun acc c => 16 * acc + ("0123456789abcdef".toList.indexOf c)) 0

/-- Trial division: `n` is at least 2 and no `m` with `2 ≤ m < n` divides it. -/
def isPrime (n : Nat) : Bool :=
  decide (2 ≤ n) && (List.range n).all (fun m => decide (m < 2) || decide (n % m ≠ 0))

/-- The first 64 primes, by trial division of the numbers below 312. -/
def primes : List Nat := (List.range 312).filter isPrime

end Spec

/-! ## Bits -/

theorem ofBits_lt (f : Nat → Bool) (k : Nat) : Spec.ofBits f k < 2 ^ k := by
  induction k with
  | zero => simp [Spec.ofBits]
  | succ k ih =>
    simp only [Spec.ofBits]
    have : 2 ^ (k + 1) = 2 ^ k + 2 ^ k := by rw [pow_succ]; omega
    split <;> omega

theorem testBit_ofBits (f : Nat → Bool) (k i : Nat) :
    (Spec.ofBits f k).testBit i = (decide (i < k) && f i) := by
  induction k with
  | zero => simp [Spec.ofBits]
  | succ k ih =>
    simp only [Spec.ofBits]
    have hlt := ofBits_lt f k
    by_cases hf : f k
    · simp only [hf, if_true]
      rw [Nat.add_comm]
      rcases Nat.lt_trichotomy i k with h | h | h
      · rw [Nat.testBit_two_pow_add_gt h, ih]
        simp [h, Nat.lt_succ_of_lt h]
      · subst h
        rw [Nat.testBit_two_pow_add_eq, Nat.testBit_lt_two_pow hlt]
        simp [hf]
      · have h2 : Spec.ofBits f k + 2 ^ k < 2 ^ i := by
          have : 2 ^ (k + 1) ≤ 2 ^ i := Nat.pow_le_pow_right (by decide) h
          have : 2 ^ (k + 1) = 2 ^ k + 2 ^ k := by rw [pow_succ]; omega
          omega
        rw [Nat.add_comm, Nat.testBit_lt_two_pow h2]
        have : ¬ i < k + 1 := by omega
        simp [this]
    · simp only [hf, Bool.false_eq_true, if_false, Nat.add_zero, ih]
      by_cases h : i = k
      · subst h; simp [hf]
      · have : (i < k + 1) = (i < k) := by
          apply propext; omega
        simp [this]

theorem testBit_high {x i : Nat} (hx : x < 2 ^ 32) (hi : 32 ≤ i) : x.testBit i = false :=
  Nat.testBit_lt_two_pow (lt_of_lt_of_le hx (Nat.pow_le_pow_right (by decide) hi))

theorem ROTR_eq_rotr {x n : Nat} (hx : x < 2 ^ 32) (hn : n ≤ 32) : ROTR x n = Spec.rotr x n := by
  apply Nat.eq_of_testBit_eq
  intro i
  simp only [ROTR, u32, Spec.rotr, testBit_ofBits, Nat.testBit_lor, Nat.testBit_shiftRight,
    Nat.testBit_mod_two_pow, Nat.testBit_shiftLeft]
  by_cases hi : i < 32
  · by_cases h2 : i + n < 32
    · have e1 : (i + n) % 32 = n + i := by omega
      have e2 : ¬ (i ≥ 32 - n) := by omega
      simp [hi, e1, e2]
    · have e1 : (i + n) % 32 = i - (32 - n) := by omega
      have e2 : i ≥ 32 - n := by omega
      have e3 : x.testBit (n + i) = false := testBit_high hx (by omega)
      simp [hi, e1, e2, e3]
  · have e3 : x.testBit (n + i) = false := testBit_high hx (by omega)
    simp [hi, e3]

theorem SHR_eq_shr {x : Nat} (hx : x < 2 ^ 32) (n : Nat) : SHR x n = Spec.shr x n := by
  apply Nat.eq_of_testBit_eq
  intro i
  simp only [SHR, Spec.shr, testBit_ofBits, Nat.testBit_shiftRight]
  by_cases hi : i + n < 32
  · have h1 : i < 32 := by omega
    have h2 : n + i < 32 := by omega
    simp [h1, h2, Nat.add_comm]
  · have e3 : x.testBit (n + i) = false := testBit_high hx (by omega)
    simp [hi, e3]

theorem NOT_eq_compl {x : Nat} (hx : x < 2 ^ 32) : NOT x = Spec.compl x := by
  apply Nat.eq_of_testBit_eq
  intro i
  have h1 : (0xffffffff : Nat) = 2 ^ 32 - 1 := by norm_num
  simp only [NOT, Spec.compl, testBit_ofBits, Nat.testBit_xor, h1, Nat.testBit_two_pow_sub_one]
  by_cases hi : i < 32
  · simp [hi]
  · simp [hi, testBit_high hx (by omega : 32 ≤ i)]

/-! ## `nexthash` against the specification's algorithm -/

theorem u32_lt (x : Nat) : u32 x < 2 ^ 32 := Nat.mod_lt x (by decide)

theorem Spec_W_lt (M : List Nat) (hM : ∀ x ∈ M, x < 2 ^ 32) (t : Nat) : Spec.W M t < 2 ^ 32 := by
  rw [Spec.W]
  split
  · rename_i h
    rw [List.getD_eq_getElem?_getD]
    rcases Nat.lt_or_ge t M.length with h1 | h1
    · rw [List.getElem?_eq_getElem h1]
      exact hM _ (List.getElem_mem h1)
    · rw [List.getElem?_eq_none h1]; decide
  · exact Nat.mod_lt _ (by decide)

theorem sig0_eq {x : Nat} (hx : x < 2 ^ 32) : sig0 x = Spec.sig0 x := by
  simp only [sig0, Spec.sig0, ROTR_eq_rotr hx (by decide : 7 ≤ 32),
    ROTR_eq_rotr hx (by decide : 18 ≤ 32), SHR_eq_shr hx]

theorem sig1_eq {x : Nat} (hx : x < 2 ^ 32) : sig1 x = Spec.sig1 x := by
  simp only [sig1, Spec.sig1, ROTR_eq_rotr hx (by decide : 17 ≤ 32),
    ROTR_eq_rotr hx (by decide : 19 ≤ 32), SHR_eq_shr hx]

theorem Sig0_eq {x : Nat} (hx : x < 2 ^ 32) : Sig0 x = Spec.Sig0 x := by
  simp only [Sig0, Spec.Sig0, ROTR_eq_rotr hx (by decide : 2 ≤ 32),
    ROTR_eq_rotr hx (by decide : 13 ≤ 32), ROTR_eq_rotr hx (by decide : 22 ≤ 32)]

theorem Sig1_eq {x : Nat} (hx : x < 2 ^ 32) : Sig1 x = Spec.Sig1 x := by
  simp only [Sig1, Spec.Sig1, ROTR_eq_rotr hx (by decide : 6 ≤ 32),
    ROTR_eq_rotr hx (by decide : 11 ≤ 32), ROTR_eq_rotr hx (by decide : 25 ≤ 32)]

theorem Ch_eq {x : Nat} (hx : x < 2 ^ 32) (y z : Nat) : Ch x y z = Spec.Ch x y z := by
  simp only [Ch, Spec.Ch, NOT_eq_compl hx]

theorem Maj_eq (x y z : Nat) : Maj x y z = Spec.Maj x y z := rfl

/-- The first loop of `nexthash` run for `n` steps on an array of 64 words. -/
theorem copy_loop (M W0 : List Nat) (h0 : W0.length = 64) (n : Nat) (hn : n ≤ 64) :
    ((List.range n).foldl (copyStep M) W0).length = 64 ∧
    ∀ t, t < n → ((List.range n).foldl (copyStep M) W0).getD t 0 = M.getD t 0 := by
  induction n with
  | zero => simp [h0]
  | succ n ih =>
    obtain ⟨hl, hv⟩ := ih (by omega)
    rw [List.range_succ, List.foldl_append]
    simp only [List.foldl_cons, List.foldl_nil]
    generalize (List.range n).foldl (copyStep M) W0 = Wn at hl hv
    simp only [copyStep]
    refine ⟨by simp [hl], ?_⟩
    intro t ht
    rw [List.getD_eq_getElem?_getD, List.getElem?_set]
    by_cases h : n = t
    · subst h
      have e : n < Wn.length := by omega
      simp only [if_true, e, Option.getD_some]
    · simp only [h, if_false]
      rw [← List.getD_eq_getElem?_getD]
      apply hv; omega

/-- The second loop of `nexthash` run for `n ≤ 48` steps. -/
theorem sched_loop (M : List Nat) (hM : ∀ x ∈ M, x < 2 ^ 32) (n : Nat) (hn : n ≤ 48) :
    ((List.range' 16 n).foldl schedStep
      ((List.range 16).foldl (copyStep M) (List.replicate 64 0))).length = 64 ∧
    ∀ t, t < 16 + n → ((List.range' 16 n).foldl schedStep
      ((List.range 16).foldl (copyStep M) (List.replicate 64 0))).getD t 0 = Spec.W M t := by
  induction n with
  | zero =>
    obtain ⟨hl, hv⟩ := copy_loop M (List.replicate 64 0) (List.length_replicate _ _) 16 (by decide)
    refine ⟨by simpa using hl, ?_⟩
    intro t ht
    simp only [List.range'_zero, List.foldl_nil]
    rw [hv t (by omega), Spec.W]
    simp [show t < 16 by omega]
  | succ n ih =>
    obtain ⟨hl, hv⟩ := ih (by omega)
    rw [List.range'_concat, List.foldl_append]
    simp only [List.foldl_cons, List.foldl_nil, Nat.one_mul]
    generalize (List.range' 16 n).foldl schedStep
      ((List.range 16).foldl (copyStep M) (List.replicate 64 0)) = Wn at hl hv
    simp only [schedStep]
    refine ⟨by simp [hl], ?_⟩
    intro t ht
    rw [List.getD_eq_getElem?_getD, List.getElem?_set]
    by_cases h : 16 + n = t
    · subst h
      have e : 16 + n < (Wn).length := by omega
      simp only [if_true, e]
      rw [hv _ (by omega), hv _ (by omega), hv _ (by omega), hv _ (by omega)]
      conv_rhs => rw [Spec.W]
      simp only [show ¬ (16 + n < 16) by omega, dite_false, Option.getD_some, u32]
      rw [sig1_eq (Spec_W_lt M hM _), sig0_eq (Spec_W_lt M hM _)]
    · simp only [h, if_false]
      rw [← List.getD_eq_getElem?_getD]
      apply hv; omega

theorem schedule_length (M : List Nat) (hM : ∀ x ∈ M, x < 2 ^ 32) : (schedule M).length = 64 :=
  (sched_loop M hM 48 (le_refl _)).1

theorem schedule_getD (M : List Nat) (hM : ∀ x ∈ M, x < 2 ^ 32) (t : Nat) (ht : t < 64) :
    (schedule M).getD t 0 = Spec.W M t :=
  (sched_loop M hM 48 (le_refl _)).2 t (by omega)

theorem roundStep_eq (M : List Nat) (hM : ∀ x ∈ M, x < 2 ^ 32) (v : Vars) (hv : v.ok)
    (t : Nat) (ht : t < 64) :
    roundStep (schedule M) v t = Spec.round M t v ∧ (Spec.round M t v).ok := by
  obtain ⟨ha, hb, hc, hd, he, hf, hg, hh⟩ := hv
  constructor
  · simp only [roundStep, Spec.round, u32, schedule_getD M hM t ht, Sig1_eq he, Sig0_eq ha,
      Ch_eq he, Maj_eq]
  · simp only [Spec.round, Vars.ok]
    refine ⟨Nat.mod_lt _ (by decide), ha, hb, hc, Nat.mod_lt _ (by decide), he, hf, hg⟩

theorem round_loop (M : List Nat) (hM : ∀ x ∈ M, x < 2 ^ 32) (v : Vars) (hv : v.ok)
    (n : Nat) (hn : n ≤ 64) :
    (List.range n).foldl (roundStep (schedule M)) v = Spec.rounds M n v ∧
    (Spec.rounds M n v).ok := by
  induction n with
  | zero => exact ⟨rfl, hv⟩
  | succ n ih =>
    obtain ⟨h1, h2⟩ := ih (by omega)
    rw [List.range_succ, List.foldl_append]
    simp only [List.foldl_cons, List.foldl_nil, Spec.rounds, h1]
    exact roundStep_eq M hM _ h2 n (by omega)

theorem getD_lt (H : List Nat) (hH : ∀ x ∈ H, x < 2 ^ 32) (i : Nat) : H.getD i 0 < 2 ^ 32 := by
  rw [List.getD_eq_getElem?_getD]
  rcases Nat.lt_or_ge i H.length with h1 | h1
  · rw [List.getElem?_eq_getElem h1]
    exact hH _ (List.getElem_mem h1)
  · rw [List.getElem?_eq_none h1]; decide

/-- The function `nexthash` computes the compression function of the specification. -/
theorem nexthash_eq_compress (M H : List Nat) (hM : ∀ x ∈ M, x < 2 ^ 32)
    (hH : ∀ x ∈ H, x < 2 ^ 32) : nexthash M H = Spec.compress H M := by
  have hv : (loadVars H).ok := by
    simp only [loadVars, Vars.ok]
    exact ⟨getD_lt H hH 0, getD_lt H hH 1, getD_lt H hH 2, getD_lt H hH 3, getD_lt H hH 4,
      getD_lt H hH 5, getD_lt H hH 6, getD_lt H hH 7⟩
  have h := (round_loop M hM _ hv 64 (le_refl _)).1
  simp only [nexthash, h, addVars, Spec.compress, u32]
  simp only [loadVars]

theorem nexthash_length (M H : List Nat) : (nexthash M H).length = 8 := rfl

theorem nexthash_lt (M H : List Nat) : ∀ x ∈ nexthash M H, x < 2 ^ 32 := by
  intro x hx
  simp only [nexthash, addVars, List.mem_cons, List.mem_singleton, List.not_mem_nil,
    or_false] at hx
  rcases hx with h | h | h | h | h | h | h | h <;> (rw [h]; exact u32_lt _)

/-! ## Bytes and words in memory -/

theorem bytes32_ofBytes (b0 b1 b2 b3 : Byte) : bytes32 (ofBytes [b0, b1, b2, b3]) = [b0, b1, b2, b3] := by
  simp only [bytes32, ofBytes, toByte, List.foldl_cons, List.foldl_nil, List.cons.injEq, and_true]
  refine ⟨?_, ?_, ?_, ?_⟩ <;> (apply Fin.ext; simp only []; omega)

theorem bytes64_ofBytes (b0 b1 b2 b3 b4 b5 b6 b7 : Byte) :
    bytes64 (ofBytes [b0, b1, b2, b3, b4, b5, b6, b7]) = [b0, b1, b2, b3, b4, b5, b6, b7] := by
  simp only [bytes64, ofBytes, toByte, List.foldl_cons, List.foldl_nil, List.cons.injEq, and_true]
  refine ⟨?_, ?_, ?_, ?_, ?_, ?_, ?_, ?_⟩ <;> (apply Fin.ext; simp only []; omega)

theorem ofBytes_bytes32 (x : Nat) : ofBytes (bytes32 x) = x % 2 ^ 32 := by
  simp only [bytes32, ofBytes, toByte, List.foldl_cons, List.foldl_nil]
  omega

theorem ofBytes_bytes64 (x : Nat) : ofBytes (bytes64 x) = x % 2 ^ 64 := by
  simp only [bytes64, ofBytes, toByte, List.foldl_cons, List.foldl_nil]
  omega

theorem bytes64_mod (x : Nat) : bytes64 (x % 2 ^ 64) = bytes64 x := by
  simp only [bytes64, toByte, List.cons.injEq, and_true]
  refine ⟨?_, ?_, ?_, ?_, ?_, ?_, ?_, ?_⟩ <;> (apply Fin.ext; simp only []; omega)

theorem be64_eq_bytes64 (x : Nat) : Spec.be64 x = bytes64 x := by
  simp [Spec.be64, bytes64, List.range, List.range.loop]

/-- In the memory of either host, `htobe64 (x)` lies as the big-endian bytes of `x`. -/
theorem hostOrder_htobe64 (le : Bool) (x : Nat) :
    hostOrder le (bytes64 (htobe64 le x)) = bytes64 x := by
  cases le
  · rfl
  · simp only [hostOrder, htobe64, if_true, bswap64]
    have h : bytes64 (ofBytes (bytes64 x).reverse) = (bytes64 x).reverse := by
      simp only [bytes64, List.reverse_cons, List.reverse_nil, List.nil_append, List.cons_append]
      exact bytes64_ofBytes _ _ _ _ _ _ _ _
    rw [h, List.reverse_reverse]

theorem four_bytes (l : List Byte) (h : l.length = 4) : ∃ a b c d, l = [a, b, c, d] := by
  match l, h with
  | [a, b, c, d], _ => exact ⟨a, b, c, d, rfl⟩

/-- Converting a loaded word with `be32toh` gives the big-endian value of its bytes. -/
theorem be32toh_hostOrder (le : Bool) (l : List Byte) (h : l.length = 4) :
    be32toh le (ofBytes (hostOrder le l)) = ofBytes l := by
  cases le
  · rfl
  · obtain ⟨a, b, c, d, rfl⟩ := four_bytes l h
    simp only [hostOrder, be32toh, if_true, bswap32, List.reverse_cons, List.reverse_nil,
      List.nil_append, List.cons_append]
    rw [bytes32_ofBytes]
    rfl

/-- Storing a 32-bit value and loading it again, in the order of either host. -/
theorem ofBytes_hostOrder_bytes32 (le : Bool) (x : Nat) :
    ofBytes (hostOrder le (hostOrder le (bytes32 x))) = x % 2 ^ 32 := by
  cases le
  · exact ofBytes_bytes32 x
  · simp only [hostOrder, if_true, List.reverse_reverse]
    exact ofBytes_bytes32 x

theorem ofBytes_lt (l : List Byte) (h : l.length ≤ 4) : ofBytes l < 2 ^ 32 := by
  match l, h with
  | [], _ => simp [ofBytes]
  | [a], _ => simp only [ofBytes, List.foldl_cons, List.foldl_nil]; omega
  | [a, b], _ => simp only [ofBytes, List.foldl_cons, List.foldl_nil]; omega
  | [a, b, c], _ => simp only [ofBytes, List.foldl_cons, List.foldl_nil]; omega
  | [a, b, c, d], _ => simp only [ofBytes, List.foldl_cons, List.foldl_nil]; omega

theorem hostOrder_length (le : Bool) (l : List Byte) : (hostOrder le l).length = l.length := by
  cases le <;> simp [hostOrder]

theorem store32_length (le : Bool) (M : List Byte) (j x : Nat) (h : 4 * j + 4 ≤ M.length) :
    (store32 le M j x).length = M.length := by
  simp only [store32, List.length_append, List.length_take, List.length_drop, hostOrder_length,
    bytes32, List.length_cons, List.length_nil]
  omega

theorem getElem?_store32 (le : Bool) (M : List Byte) (j x k : Nat) (h : 4 * j + 4 ≤ M.length) :
    (store32 le M j x)[k]? =
      if k < 4 * j then M[k]? else if k < 4 * j + 4 then (hostOrder le (bytes32 x))[k - 4 * j]?
      else M[k]? := by
  have hX : (hostOrder le (bytes32 x)).length = 4 := by rw [hostOrder_length]; rfl
  have hA : (M.take (4 * j)).length = 4 * j := by rw [List.length_take]; omega
  simp only [store32]
  by_cases h1 : k < 4 * j
  · rw [List.append_assoc, List.getElem?_append_left (by omega)]
    simp [h1, List.getElem?_take]
  · by_cases h2 : k < 4 * j + 4
    · rw [List.append_assoc, List.getElem?_append_right (by omega),
        List.getElem?_append_left (by omega)]
      simp [h1, h2, hA]
    · rw [List.getElem?_append_right (by simp [hX, hA]; omega)]
      simp only [h1, h2, if_false, List.length_append, hA, hX, List.getElem?_drop]
      congr 1; omega

theorem slice_ext (L1 L2 : List Byte) (a n : Nat)
    (h : ∀ k, k < n → L1[a + k]? = L2[a + k]?) : (L1.drop a).take n = (L2.drop a).take n := by
  apply List.ext_getElem?
  intro k
  simp only [List.getElem?_take, List.getElem?_drop]
  split
  · rename_i hk; exact h k hk
  · rfl

theorem load32_store32_ne (le : Bool) (M : List Byte) (i j x : Nat) (h : 4 * j + 4 ≤ M.length)
    (hij : i ≠ j) : load32 le (store32 le M j x) i = load32 le M i := by
  simp only [load32]
  congr 2
  apply slice_ext
  intro k hk
  rw [getElem?_store32 le M j x _ h]
  rcases Nat.lt_or_gt_of_ne hij with h1 | h1
  · simp [show 4 * i + k < 4 * j by omega]
  · simp [show ¬ (4 * i + k < 4 * j) by omega, show ¬ (4 * i + k < 4 * j + 4) by omega]

theorem load32_store32_same (le : Bool) (M : List Byte) (j x : Nat) (h : 4 * j + 4 ≤ M.length) :
    load32 le (store32 le M j x) j = x % 2 ^ 32 := by
  have hX : (hostOrder le (bytes32 x)).length = 4 := by rw [hostOrder_length]; rfl
  have hA : (M.take (4 * j)).length = 4 * j := by rw [List.length_take]; omega
  have : ((store32 le M j x).drop (4 * j)).take 4 = hostOrder le (bytes32 x) := by
    simp only [store32, List.append_assoc]
    rw [List.drop_left' hA, List.take_left' hX]
  simp only [load32, this]
  exact ofBytes_hostOrder_bytes32 le x

theorem slice_length (M : List Byte) (i : Nat) (h : 4 * i + 4 ≤ M.length) :
    ((M.drop (4 * i)).take 4).length = 4 := by
  simp only [List.length_take, List.length_drop]; omega

/-- The conversion loop of `nextblock` run for `n ≤ 16` steps on a 64-byte block. -/
theorem toHost_steps (le : Bool) (B : List Byte) (hB : B.length = 64) (n : Nat) (hn : n ≤ 16) :
    ((List.range n).foldl (fun B i => store32 le B i (be32toh le (load32 le B i))) B).length = 64
    ∧ ∀ i, i < 16 →
      load32 le ((List.range n).foldl
        (fun B i => store32 le B i (be32toh le (load32 le B i))) B) i =
      if i < n then ofBytes ((B.drop (4 * i)).take 4) else load32 le B i := by
  induction n with
  | zero => simp [hB]
  | succ n ih =>
    obtain ⟨hl, hv⟩ := ih (by omega)
    rw [List.range_succ, List.foldl_append]
    simp only [List.foldl_cons, List.foldl_nil]
    generalize (List.range n).foldl
      (fun B i => store32 le B i (be32toh le (load32 le B i))) B = Bn at hl hv
    have hst : 4 * n + 4 ≤ Bn.length := by omega
    refine ⟨by rw [store32_length le Bn n _ hst]; exact hl, ?_⟩
    intro i hi
    by_cases h : i = n
    · subst h
      rw [load32_store32_same le Bn i _ hst, hv i hi]
      simp only [lt_irrefl, if_false, Nat.lt_succ_self, if_true]
      have hs := slice_length B i (by omega)
      simp only [load32]
      rw [be32toh_hostOrder le _ hs]
      exact Nat.mod_eq_of_lt (ofBytes_lt _ (by omega))
    · rw [load32_store32_ne le Bn i n _ hst h, hv i hi]
      have : (i < n + 1) = (i < n) := by apply propext; omega
      simp only [this]

theorem toHostLoop_length (le : Bool) (B : List Byte) (hB : B.length = 64) :
    (toHostLoop le B).length = 64 := (toHost_steps le B hB 16 (le_refl _)).1

/-- After the conversion loop the array `threetwo` holds the big-endian words of the
block, whatever the byte order of the host. -/
theorem threetwo_toHostLoop (le : Bool) (B : List Byte) (hB : B.length = 64) :
    threetwo le (toHostLoop le B) = Spec.beWords B := by
  simp only [threetwo, Spec.beWords]
  apply List.map_congr_left
  intro i hi
  have hi16 : i < 16 := List.mem_range.mp hi
  have := (toHost_steps le B hB 16 (le_refl _)).2 i hi16
  simpa [toHostLoop, hi16] using this

theorem beWords_lt (B : List Byte) : ∀ x ∈ Spec.beWords B, x < 2 ^ 32 := by
  intro x hx
  simp only [Spec.beWords, List.mem_map] at hx
  obtain ⟨i, _, rfl⟩ := hx
  apply ofBytes_lt
  simp only [List.length_take]; omega

/-! ## The switch statement of `nextblock` -/

theorem zero_steps (M : List Byte) (lo n : Nat) (h : lo + n ≤ M.length) :
    (List.range' lo n).foldl (fun B i => B.set i 0) M
      = M.take lo ++ List.replicate n 0 ++ M.drop (lo + n) := by
  induction n with
  | zero => simp
  | succ n ih =>
    rw [List.range'_concat, List.foldl_append, ih (by omega)]
    simp only [List.foldl_cons, List.foldl_nil, Nat.one_mul]
    have hA : (M.take lo ++ List.replicate n (0 : Byte)).length = lo + n := by
      simp only [List.length_append, List.length_take, List.length_replicate]; omega
    have hd : M.drop (lo + n) = M[lo + n] :: M.drop (lo + n + 1) := by
      rw [List.drop_eq_getElem_cons]
    rw [hd, List.set_append_right _ _ (by omega), hA, Nat.sub_self, List.set_cons_zero,
      List.replicate_succ', Nat.add_assoc]
    simp

theorem zeroLoop_eq (M : List Byte) (lo hi : Nat) (h1 : lo ≤ hi) (h2 : hi ≤ M.length) :
    zeroLoop M lo hi = M.take lo ++ List.replicate (hi - lo) 0 ++ M.drop hi := by
  rw [zeroLoop, zero_steps M lo (hi - lo) (by omega)]
  congr 2; omega

theorem store64_last (le : Bool) (M : List Byte) (x : Nat) (h : M.length = 64) :
    store64 le M 7 (htobe64 le x) = M.take 56 ++ bytes64 x := by
  simp only [store64, hostOrder_htobe64]
  rw [List.drop_eq_nil_of_le (by omega)]
  simp

theorem u64_bits (nobits n : Nat) :
    u64 (nobits + u64 (8 * u64 n)) = (nobits + 8 * n) % 2 ^ 64 := by
  simp only [u64]; omega

/-- Case `FINISH`: no block. -/
theorem switch_finish (le : Bool) (s : Framer) (hs : s.status = PADFLAG.FINISH) :
    nextblockSwitch le s = none := by
  simp [nextblockSwitch, hs]

/-- Case `PAD0`: the block of 56 zero bytes and the length. -/
theorem switch_pad0 (le : Bool) (s : Framer) (hs : s.status = PADFLAG.PAD0)
    (hM : s.M.length = 64) :
    nextblockSwitch le s = some
      { M := List.replicate 56 0 ++ bytes64 s.nobits, infile := s.infile,
        nobits := s.nobits, status := PADFLAG.FINISH } := by
  have h1 : zeroLoop s.M 0 56 = List.replicate 56 0 ++ s.M.drop 56 := by
    rw [zeroLoop_eq s.M 0 56 (by omega) (by omega)]; simp
  have h2 : (zeroLoop s.M 0 56).length = 64 := by
    rw [h1]; simp only [List.length_append, List.length_replicate, List.length_drop]; omega
  simp only [nextblockSwitch, hs, store64_last le _ _ h2]
  rw [h1, List.take_left' (by simp)]

/-- Case `READ` when at least 64 bytes remain: the next 64 bytes of the file. -/
theorem switch_full (le : Bool) (s : Framer) (hs : s.status = PADFLAG.READ)
    (hM : s.M.length = 64) (hf : 64 ≤ s.infile.length) :
    nextblockSwitch le s = some
      { M := s.infile.take 64, infile := s.infile.drop 64,
        nobits := (s.nobits + 512) % 2 ^ 64, status := PADFLAG.READ } := by
  have hl : (s.infile.take 64).length = 64 := by rw [List.length_take]; omega
  simp only [nextblockSwitch, hs, fread, readCase, hl, u64_bits _ 64]
  rw [List.drop_eq_nil_of_le (by omega)]
  simp

/-- Case `READ` when fewer than 56 bytes remain: data, `0x80`, zeros and the length. -/
theorem switch_short (le : Bool) (s : Framer) (hs : s.status = PADFLAG.READ)
    (hM : s.M.length = 64) (hf : s.infile.length < 56) :
    nextblockSwitch le s = some
      { M := s.infile ++ [0x80] ++ List.replicate (55 - s.infile.length) 0
               ++ bytes64 ((s.nobits + 8 * s.infile.length) % 2 ^ 64),
        infile := [], nobits := (s.nobits + 8 * s.infile.length) % 2 ^ 64,
        status := PADFLAG.FINISH } := by
  have ht : s.infile.take 64 = s.infile := List.take_of_length_le (by omega)
  have hd : s.infile.drop 64 = [] := List.drop_eq_nil_of_le (by omega)
  have hdr : s.M.drop s.infile.length = s.M[s.infile.length] :: s.M.drop (s.infile.length + 1) := by
    rw [List.drop_eq_getElem_cons]
  have h1 : (s.infile ++ s.M.drop s.infile.length).set s.infile.length (0x80 : Byte)
      = s.infile ++ (0x80 : Byte) :: s.M.drop (s.infile.length + 1) := by
    rw [hdr, List.set_append_right _ _ (le_refl _), Nat.sub_self, List.set_cons_zero]
  have h2 : zeroLoop (s.infile ++ (0x80 : Byte) :: s.M.drop (s.infile.length + 1))
      (s.infile.length + 1) 56
      = s.infile ++ [0x80] ++ List.replicate (55 - s.infile.length) 0 ++ s.M.drop 56 := by
    rw [zeroLoop_eq _ _ _ (by omega) (by simp; omega)]
    have e1 : (s.infile ++ (0x80 : Byte) :: s.M.drop (s.infile.length + 1))
        = (s.infile ++ [0x80]) ++ s.M.drop (s.infile.length + 1) := by simp
    have e2 : (s.infile ++ [(0x80 : Byte)]).length = s.infile.length + 1 := by simp
    rw [e1, List.take_left' e2]
    have e3 : 56 = (s.infile ++ [(0x80 : Byte)]).length + (55 - s.infile.length) := by
      rw [e2]; omega
    congr 1
    · congr 2; omega
    · conv_lhs => rw [e3, ← List.drop_drop, List.drop_left' rfl]
      rw [List.drop_drop]; congr 1; omega
  have h3 : (s.infile ++ [0x80] ++ List.replicate (55 - s.infile.length) 0 ++ s.M.drop 56).length
      = 64 := by
    simp only [List.length_append, List.length_replicate, List.length_drop, List.length_cons,
      List.length_nil]; omega
  have h4 : (s.infile ++ [0x80] ++ List.replicate (55 - s.infile.length) (0 : Byte)).length
      = 56 := by
    simp only [List.length_append, List.length_replicate, List.length_cons, List.length_nil]
    omega
  simp only [nextblockSwitch, hs, fread, readCase, ht, hd, hf, if_true,
    u64_bits, h1, h2, store64_last le _ _ h3,
    List.take_left' h4]

/-- Case `READ` when 56 to 63 bytes remain: data, `0x80` and zeros, no length. -/
theorem switch_mid (le : Bool) (s : Framer) (hs : s.status = PADFLAG.READ)
    (hM : s.M.length = 64) (h56 : 56 ≤ s.infile.length) (h64 : s.infile.length < 64) :
    nextblockSwitch le s = some
      { M := s.infile ++ [0x80] ++ List.replicate (63 - s.infile.length) 0,
        infile := [], nobits := (s.nobits + 8 * s.infile.length) % 2 ^ 64,
        status := PADFLAG.PAD0 } := by
  have ht : s.infile.take 64 = s.infile := List.take_of_length_le (by omega)
  have hd : s.infile.drop 64 = [] := List.drop_eq_nil_of_le (by omega)
  have hdr : s.M.drop s.infile.length = s.M[s.infile.length] :: s.M.drop (s.infile.length + 1) := by
    rw [List.drop_eq_getElem_cons]
  have h1 : (s.infile ++ s.M.drop s.infile.length).set s.infile.length (0x80 : Byte)
      = s.infile ++ (0x80 : Byte) :: s.M.drop (s.infile.length + 1) := by
    rw [hdr, List.set_append_right _ _ (le_refl _), Nat.sub_self, List.set_cons_zero]
  have h2 : zeroLoop (s.infile ++ (0x80 : Byte) :: s.M.drop (s.infile.length + 1))
      (s.infile.length + 1) 64
      = s.infile ++ [0x80] ++ List.replicate (63 - s.infile.length) 0 := by
    rw [zeroLoop_eq _ _ _ (by omega) (by simp; omega)]
    have e1 : (s.infile ++ (0x80 : Byte) :: s.M.drop (s.infile.length + 1))
        = (s.infile ++ [0x80]) ++ s.M.drop (s.infile.length + 1) := by simp
    have e2 : (s.infile ++ [(0x80 : Byte)]).length = s.infile.length + 1 := by simp
    rw [e1, List.take_left' e2, List.drop_eq_nil_of_le (by simp; omega), List.append_nil]
    congr 2; omega
  have hn : ¬ s.infile.length < 56 := by omega
  simp only [nextblockSwitch, hs, fread, readCase, ht, hd, hn, h64, if_true, if_false,
    u64_bits, h1, h2]

/-! ## Blocks of the padded message -/

theorem blocks_append (A rest : List Byte) (hA : A.length = 64) :
    Spec.blocks (A ++ rest) = A :: Spec.blocks rest := by
  have h1 : (A ++ rest).length / 64 = rest.length / 64 + 1 := by
    rw [List.length_append, hA]; omega
  simp only [Spec.blocks, h1, List.range_succ_eq_map, List.map_cons, List.map_map]
  congr 1
  · simp only [Nat.mul_zero, List.drop_zero]
    rw [List.take_left' hA]
  · apply List.map_congr_left
    intro i _
    simp only [Function.comp]
    have : 64 * (i + 1) = A.length + 64 * i := by omega
    rw [this, ← List.drop_drop, List.drop_left' rfl]

theorem blocks_short (p : List Byte) (h : p.length < 64) : Spec.blocks p = [] := by
  simp [Spec.blocks, Nat.div_eq_of_lt h]

theorem blocks_one (A : List Byte) (hA : A.length = 64) : Spec.blocks A = [A] := by
  have := blocks_append A [] hA
  rw [List.append_nil] at this
  rw [this, blocks_short [] (by simp)]

theorem blocks_two (A B : List Byte) (hA : A.length = 64) (hB : B.length = 64) :
    Spec.blocks (A ++ B) = [A, B] := by
  rw [blocks_append A B hA, blocks_one B hB]

theorem blocks_join (k : Nat) : ∀ p : List Byte, p.length = 64 * k → (Spec.blocks p).flatten = p := by
  induction k with
  | zero =>
    intro p hp
    have : p = [] := List.length_eq_zero.mp (by omega)
    subst this
    simp [Spec.blocks]
  | succ k ih =>
    intro p hp
    have h1 : (p.take 64).length = 64 := by rw [List.length_take]; omega
    have h2 : (p.drop 64).length = 64 * k := by rw [List.length_drop]; omega
    conv_lhs => rw [← List.take_append_drop 64 p]
    rw [blocks_append _ _ h1, List.flatten_cons, ih _ h2, List.take_append_drop]

theorem bytes64_length (x : Nat) : (bytes64 x).length = 8 := rfl

theorem padWith_eq (bits : Nat) (m : List Byte) :
    Spec.padWith bits m = m ++ [0x80] ++ List.replicate (Spec.zeros m.length) 0 ++ bytes64 bits := by
  rw [Spec.padWith, be64_eq_bytes64]

theorem padWith_split (bits : Nat) (m : List Byte) (h : 64 ≤ m.length) :
    Spec.padWith bits m = m.take 64 ++ Spec.padWith bits (m.drop 64) := by
  have hz : Spec.zeros (m.drop 64).length = Spec.zeros m.length := by
    simp only [Spec.zeros, List.length_drop]
    congr 2; omega
  simp only [Spec.padWith, hz, ← List.append_assoc, List.take_append_drop]

theorem padWith_short (bits : Nat) (m : List Byte) (h : m.length < 56) :
    Spec.padWith bits m = m ++ [0x80] ++ List.replicate (55 - m.length) 0 ++ bytes64 bits := by
  have hz : Spec.zeros m.length = 55 - m.length := by simp only [Spec.zeros]; omega
  rw [padWith_eq, hz]

theorem padWith_mid (bits : Nat) (m : List Byte) (h1 : 56 ≤ m.length) (h2 : m.length < 64) :
    Spec.padWith bits m = (m ++ [0x80] ++ List.replicate (63 - m.length) 0)
      ++ (List.replicate 56 0 ++ bytes64 bits) := by
  have hz : Spec.zeros m.length = (63 - m.length) + 56 := by simp only [Spec.zeros]; omega
  rw [padWith_eq, hz, List.replicate_add]
  simp only [List.append_assoc]

theorem padWith_length (bits : Nat) (m : List Byte) :
    (Spec.padWith bits m).length = 64 * ((m.length + 8) / 64 + 1) := by
  rw [padWith_eq]
  simp only [List.length_append, List.length_replicate, List.length_cons, List.length_nil,
    bytes64_length, Spec.zeros]
  omega

/-! ## Runs of `nextblock` -/

/-- The switch statement leaves a 64-byte block. -/
theorem switch_length (le : Bool) (s w : Framer) (hM : s.M.length = 64)
    (h : nextblockSwitch le s = some w) : w.M.length = 64 := by
  cases hs : s.status with
  | FINISH => rw [switch_finish le s hs] at h; cases h
  | PAD0 =>
    rw [switch_pad0 le s hs hM] at h
    cases h; rfl
  | READ =>
    rcases Nat.lt_or_ge s.infile.length 56 with h1 | h1
    · rw [switch_short le s hs hM h1] at h
      cases h
      simp only [List.length_append, List.length_replicate, List.length_cons, List.length_nil,
        bytes64_length]
      omega
    · rcases Nat.lt_or_ge s.infile.length 64 with h2 | h2
      · rw [switch_mid le s hs hM h1 h2] at h
        cases h
        simp only [List.length_append, List.length_replicate, List.length_cons, List.length_nil]
        omega
      · rw [switch_full le s hs hM h2] at h
        cases h
        simp only [List.length_take]; omega

/-- A call of `nextblock` whose switch leaves `w`: it returns 1, converts the block and
changes nothing else. -/
theorem nextblock_after (le : Bool) (s w : Framer) (h : nextblockSwitch le s = some w) :
    (nextblock le s).1 = 1 ∧ (nextblock le s).2.M = toHostLoop le w.M ∧
    (nextblock le s).2.infile = w.infile ∧ (nextblock le s).2.nobits = w.nobits ∧
    (nextblock le s).2.status = w.status := by
  simp only [nextblock, h, and_self]

theorem nextblock_none (le : Bool) (s : Framer) (h : nextblockSwitch le s = none) :
    nextblock le s = (0, s) := by
  simp only [nextblock, h]

theorem wireBlocks_succ (le : Bool) (fuel : Nat) (s w : Framer)
    (h : nextblockSwitch le s = some w) :
    wireBlocks le (fuel + 1) s
      = (wireBlocks le fuel (nextblock le s).2).map (fun bs => w.M :: bs) := by
  simp only [wireBlocks, h]

theorem wireBlocks_finish (le : Bool) (fuel : Nat) (s : Framer) (hs : s.status = PADFLAG.FINISH)
    (hf : 1 ≤ fuel) : wireBlocks le fuel s = some [] := by
  obtain ⟨fuel, rfl⟩ : ∃ k, fuel = k + 1 := ⟨fuel - 1, by omega⟩
  simp only [wireBlocks, switch_finish le s hs]

/-- The blocks handed out from phase `READ` are the blocks of the padded rest of the
file, the length field holding the final value of the bit counter. -/
theorem wireBlocks_read (le : Bool) (fuel : Nat) :
    ∀ s : Framer, s.status = PADFLAG.READ → s.M.length = 64 →
      (s.infile.length + 8) / 64 + 2 ≤ fuel →
      wireBlocks le fuel s = some (Spec.blocks
        (Spec.padWith ((s.nobits + 8 * s.infile.length) % 2 ^ 64) s.infile)) := by
  induction fuel with
  | zero => intro s _ _ hf; omega
  | succ fuel ih =>
    intro s hs hM hf
    have hf1 : 1 ≤ fuel := by omega
    rcases Nat.lt_or_ge s.infile.length 56 with h1 | h1
    · obtain ⟨w, hsw, hwM, hws⟩ : ∃ w, nextblockSwitch le s = some w ∧
          w.M = s.infile ++ [0x80] ++ List.replicate (55 - s.infile.length) 0
            ++ bytes64 ((s.nobits + 8 * s.infile.length) % 2 ^ 64) ∧
          w.status = PADFLAG.FINISH := ⟨_, switch_short le s hs hM h1, rfl, rfl⟩
      have hl := switch_length le s _ hM hsw
      obtain ⟨_, _, _, _, hs1⟩ := nextblock_after le s w hsw
      rw [wireBlocks_succ le fuel s _ hsw,
        wireBlocks_finish le fuel _ (hs1.trans hws) hf1,
        padWith_short _ _ h1, ← hwM, blocks_one _ hl, Option.map_some']
    · rcases Nat.lt_or_ge s.infile.length 64 with h2 | h2
      · obtain ⟨w, hsw, hwM, hwn, hws⟩ : ∃ w, nextblockSwitch le s = some w ∧
            w.M = s.infile ++ [0x80] ++ List.replicate (63 - s.infile.length) 0 ∧
            w.nobits = (s.nobits + 8 * s.infile.length) % 2 ^ 64 ∧
            w.status = PADFLAG.PAD0 := ⟨_, switch_mid le s hs hM h1 h2, rfl, rfl, rfl⟩
        have hl := switch_length le s _ hM hsw
        obtain ⟨_, hM1, _, hn1, hs1⟩ := nextblock_after le s w hsw
        rw [wireBlocks_succ le fuel s _ hsw]
        generalize (nextblock le s).2 = s1 at hM1 hn1 hs1 ⊢
        have hl1 : s1.M.length = 64 := by rw [hM1]; exact toHostLoop_length le _ hl
        have hf2 : 2 ≤ fuel := by omega
        obtain ⟨fuel, rfl⟩ : ∃ k, fuel = k + 1 := ⟨fuel - 1, by omega⟩
        have hf3 : 1 ≤ fuel := by omega
        obtain ⟨w2, hsw2, hw2M, hw2s⟩ : ∃ w2, nextblockSwitch le s1 = some w2 ∧
            w2.M = List.replicate 56 0 ++ bytes64 s1.nobits ∧ w2.status = PADFLAG.FINISH :=
          ⟨_, switch_pad0 le s1 (hs1.trans hws) hl1, rfl, rfl⟩
        have hl2 := switch_length le _ _ hl1 hsw2
        obtain ⟨_, _, _, _, hs2⟩ := nextblock_after le s1 w2 hsw2
        rw [wireBlocks_succ le fuel _ _ hsw2,
          wireBlocks_finish le fuel _ (hs2.trans hw2s) hf3, padWith_mid _ _ h1 h2,
          ← hwM, ← hwn, ← hn1, ← hw2M, blocks_two _ _ hl hl2, Option.map_some',
          Option.map_some']
      · obtain ⟨w, hsw, hwM, hwi, hwn, hws⟩ : ∃ w, nextblockSwitch le s = some w ∧
            w.M = s.infile.take 64 ∧ w.infile = s.infile.drop 64 ∧
            w.nobits = (s.nobits + 512) % 2 ^ 64 ∧
            w.status = PADFLAG.READ := ⟨_, switch_full le s hs hM h2, rfl, rfl, rfl, rfl⟩
        have hl := switch_length le s _ hM hsw
        obtain ⟨_, hM1, hi1, hn1, hs1⟩ := nextblock_after le s w hsw
        rw [wireBlocks_succ le fuel s _ hsw]
        generalize (nextblock le s).2 = s1 at hM1 hi1 hn1 hs1 ⊢
        have hl1 : s1.M.length = 64 := by rw [hM1]; exact toHostLoop_length le _ hl
        have hil : s1.infile.length = s.infile.length - 64 := by
          rw [hi1, hwi, List.length_drop]
        have e2 : (s1.nobits + 8 * s1.infile.length) % 2 ^ 64
            = (s.nobits + 8 * s.infile.length) % 2 ^ 64 := by
          rw [hn1, hwn, hil]; omega
        rw [ih s1 (hs1.trans hws) hl1 (by omega), Option.map_some', padWith_split _ _ h2,
          e2, hi1, hwi, ← hwM, blocks_append _ _ hl]

theorem H0_lt : ∀ x ∈ H0, x < 2 ^ 32 := by decide

/-! ## The driver -/

/-- The driver folds `nexthash` over the blocks that `nextblock` hands out, in order. -/
theorem hashLoop_nexthash (le : Bool) (fuel : Nat) :
    ∀ (s : Framer) (H : List Nat) (bs : List (List Byte)), s.M.length = 64 →
      wireBlocks le fuel s = some bs →
      (hashLoop le fuel s H).map Prod.snd
        = some (bs.foldl (fun H B => nexthash (Spec.beWords B) H) H) := by
  induction fuel with
  | zero => intro s H bs _ h; simp [wireBlocks] at h
  | succ fuel ih =>
    intro s H bs hM h
    cases hsw : nextblockSwitch le s with
    | none =>
      simp only [wireBlocks, hsw, Option.some.injEq] at h
      subst h
      simp only [hashLoop, nextblock_none le s hsw, if_true, Option.map_some', List.foldl_nil]
    | some w =>
      have hl := switch_length le s w hM hsw
      rw [wireBlocks_succ le fuel s w hsw, Option.map_eq_some'] at h
      obtain ⟨bs', h1, rfl⟩ := h
      obtain ⟨hr, hM1, _, _, _⟩ := nextblock_after le s w hsw
      have ht : threetwo le (nextblock le s).2.M = Spec.beWords w.M := by
        rw [hM1]; exact threetwo_toHostLoop le w.M hl
      have hl1 : (nextblock le s).2.M.length = 64 := by
        rw [hM1]; exact toHostLoop_length le _ hl
      simp only [hashLoop, hr, one_ne_zero, if_false, ht]
      rw [ih _ _ bs' hl1 h1, List.foldl_cons]

theorem fold_nexthash_eq (bs : List (List Byte)) :
    ∀ H : List Nat, (∀ x ∈ H, x < 2 ^ 32) →
      bs.foldl (fun H B => nexthash (Spec.beWords B) H) H
        = bs.foldl (fun H B => Spec.compress H (Spec.beWords B)) H := by
  induction bs with
  | nil => intro H _; simp only [List.foldl_nil]
  | cons B bs ih =>
    intro H hH
    rw [List.foldl_cons, List.foldl_cons, ih _ (nexthash_lt _ _),
      nexthash_eq_compress _ _ (beWords_lt _) hH]

theorem start_bits (M m : List Byte) (hm : m.length < 2 ^ 61) :
    ((start M m).nobits + 8 * (start M m).infile.length) % 2 ^ 64 = 8 * m.length := by
  have h : (0 + 8 * m.length) % 2 ^ 64 = 8 * m.length := by omega
  exact h

/-- The blocks handed out for a whole file are the blocks of its padded message. -/
theorem wireBlocks_start (le : Bool) (M m : List Byte) (fuel : Nat) (hM : M.length = 64)
    (hm : m.length < 2 ^ 61) (hf : (m.length + 8) / 64 + 2 ≤ fuel) :
    wireBlocks le fuel (start M m) = some (Spec.blocks (Spec.pad m)) := by
  rw [wireBlocks_read le fuel (start M m) rfl hM hf, start_bits M m hm]
  rfl

/-- The final hash state as a fold of `nexthash`. -/
theorem finalHash_nexthash (le : Bool) (M m : List Byte) (fuel : Nat) (hM : M.length = 64)
    (hm : m.length < 2 ^ 61) (hf : (m.length + 8) / 64 + 2 ≤ fuel) :
    finalHash le M m fuel
      = some ((Spec.blocks (Spec.pad m)).foldl (fun H B => nexthash (Spec.beWords B) H) H0) :=
  hashLoop_nexthash le fuel (start M m) H0 _ hM (wireBlocks_start le M m fuel hM hm hf)

theorem zeros_least (n : Nat) :
    (n + 1 + Spec.zeros n) % 64 = 56 ∧ ∀ k, k < Spec.zeros n → (n + 1 + k) % 64 ≠ 56 := by
  simp only [Spec.zeros]
  constructor
  · omega
  · intro k hk; omega

theorem be64_decodes (x : Nat) (hx : x < 2 ^ 64) :
    (Spec.be64 x).length = 8 ∧ ofBytes (Spec.be64 x) = x := by
  rw [be64_eq_bytes64, ofBytes_bytes64, Nat.mod_eq_of_lt hx]
  exact ⟨rfl, rfl⟩

/-- C1: for every input `m` of fewer than `2 ^ 61` bytes, the eight-word state that `main`
holds after its `nextblock`/`nexthash` loop is the SHA-256 of `m`: the left fold of the
compression function, from the initial hash value, over the consecutive 64-byte blocks
(each read as sixteen big-endian words) of `m`, `0x80`, `k` zero bytes and the 8-byte
big-endian encoding of `8 * |m|`, with `k` least such that `|m| + 1 + k` is 56 modulo 64.
The loop ends within `(|m| + 8) / 64 + 2` calls of `nextblock`, on either host byte order
and whatever the uninitialised block holds. -/
theorem main_computes_sha256 (le : Bool) (M m : List Byte) (fuel : Nat) (hM : M.length = 64)
    (hm : m.length < 2 ^ 61) (hf : (m.length + 8) / 64 + 2 ≤ fuel) :
    finalHash le M m fuel
      = some ((Spec.blocks (m ++ [0x80] ++ List.replicate (Spec.zeros m.length) 0
                ++ Spec.be64 (8 * m.length))).foldl
              (fun H B => Spec.compress H (Spec.beWords B)) H0)
    ∧ Spec.sha256 m
      = (Spec.blocks (m ++ [0x80] ++ List.replicate (Spec.zeros m.length) 0
                ++ Spec.be64 (8 * m.length))).foldl
              (fun H B => Spec.compress H (Spec.beWords B)) H0
    ∧ ((m.length + 1 + Spec.zeros m.length) % 64 = 56
        ∧ ∀ k, k < Spec.zeros m.length → (m.length + 1 + k) % 64 ≠ 56)
    ∧ ((Spec.be64 (8 * m.length)).length = 8
        ∧ ofBytes (Spec.be64 (8 * m.length)) = 8 * m.length) := by
  refine ⟨?_, rfl, zeros_least m.length, be64_decodes _ (by omega)⟩
  rw [finalHash_nexthash le M m fuel hM hm hf, fold_nexthash_eq _ _ H0_lt]
  rfl

/-- Witness of C1: the three-byte file `abc` on a little-endian host. -/
theorem main_computes_sha256_witness :
    (List.replicate 64 (0 : Byte)).length = 64 ∧ ([0x61, 0x62, 0x63] : List Byte).length < 2 ^ 61
    ∧ (([0x61, 0x62, 0x63] : List Byte).length + 8) / 64 + 2 ≤ 2
    ∧ finalHash true (List.replicate 64 0) [0x61, 0x62, 0x63] 2
        = some (Spec.sha256 [0x61, 0x62, 0x63]) :=
  ⟨by decide, by decide, by decide,
    ((main_computes_sha256 true (List.replicate 64 0) [0x61, 0x62, 0x63] 2 (by decide)
      (by decide) (by decide)).1).trans
      (congrArg some (main_computes_sha256 true (List.replicate 64 0) [0x61, 0x62, 0x63] 2
        (by decide) (by decide) (by decide)).2.1.symm)⟩

/-- C2: for every input `m` of fewer than `2 ^ 61` bytes, the blocks for which `nextblock`
returns 1 from phase `READ` and bit counter 0, concatenated in emission order and in the
byte order of the stream, are `m`, one `0x80` byte, the least number of `0x00` bytes that
brings the length to 56 modulo 64, and the 8-byte big-endian encoding of `8 * |m|`. -/
theorem framer_emits_padded_message (le : Bool) (M m : List Byte) (fuel : Nat)
    (hM : M.length = 64) (hm : m.length < 2 ^ 61) (hf : (m.length + 8) / 64 + 2 ≤ fuel) :
    (wireBlocks le fuel (start M m)).map List.flatten
      = some (m ++ [0x80] ++ List.replicate (Spec.zeros m.length) 0
                ++ Spec.be64 (8 * m.length))
    ∧ ((m.length + 1 + Spec.zeros m.length) % 64 = 56
        ∧ ∀ k, k < Spec.zeros m.length → (m.length + 1 + k) % 64 ≠ 56)
    ∧ ((Spec.be64 (8 * m.length)).length = 8
        ∧ ofBytes (Spec.be64 (8 * m.length)) = 8 * m.length) := by
  refine ⟨?_, zeros_least m.length, be64_decodes _ (by omega)⟩
  rw [wireBlocks_start le M m fuel hM hm hf, Option.map_some', Spec.pad,
    blocks_join _ _ (padWith_length _ _)]
  rfl

/-- Witness of C2: a file of 60 bytes on a big-endian host. -/
theorem framer_emits_padded_message_witness :
    (List.replicate 64 (7 : Byte)).length = 64 ∧ (List.replicate 60 (0x61 : Byte)).length < 2 ^ 61
    ∧ ((List.replicate 60 (0x61 : Byte)).length + 8) / 64 + 2 ≤ 3
    ∧ (wireBlocks false 3 (start (List.replicate 64 7) (List.replicate 60 0x61))).map List.flatten
      = some (List.replicate 60 0x61 ++ [0x80]
          ++ List.replicate (Spec.zeros (List.replicate 60 (0x61 : Byte)).length) 0
          ++ Spec.be64 (8 * (List.replicate 60 (0x61 : Byte)).length)) :=
  ⟨by decide, by decide, by decide,
    (framer_emits_padded_message false (List.replicate 64 7) (List.replicate 60 0x61) 3
      (by decide) (by decide) (by decide)).1⟩

/-- C3: for every 8-word state `H` and 16-word block `M`, `nexthash(M, H)` leaves in `H`
the state of the specification's algorithm: the schedule `W[t] = M[t]` for `t < 16` and
`W[t] = sig1(W[t-2]) + W[t-7] + sig0(W[t-15]) + W[t-16]` after, 64 rounds from
`a..h = H[0..7]`, then `H[i] + (a..h)[i]`, all additions modulo `2 ^ 32`, with `rotr` a
true 32-bit rotation and `shr` a logical shift. -/
theorem nexthash_is_compress (H M : List Nat) (hH : H.length = 8) (hM : M.length = 16)
    (hHw : ∀ x ∈ H, x < 2 ^ 32) (hMw : ∀ x ∈ M, x < 2 ^ 32) :
    nexthash M H = Spec.compress H M
    ∧ (nexthash M H).length = H.length
    ∧ (∀ x ∈ nexthash M H, x < 2 ^ 32)
    ∧ (∀ t, t < M.length → Spec.W M t = M.getD t 0)
    ∧ (∀ t, 16 ≤ t → Spec.W M t
        = (Spec.sig1 (Spec.W M (t - 2)) + Spec.W M (t - 7) + Spec.sig0 (Spec.W M (t - 15))
            + Spec.W M (t - 16)) % 2 ^ 32) := by
  refine ⟨nexthash_eq_compress M H hMw hHw, (nexthash_length M H).trans hH.symm,
    nexthash_lt M H, ?_, ?_⟩
  · intro t ht
    rw [Spec.W, dif_pos (by omega)]
  · intro t ht
    conv_lhs => rw [Spec.W]
    rw [dif_neg (by omega)]

/-- Witness of C3: the initial hash value and the only block of the empty message. -/
theorem nexthash_is_compress_witness :
    H0.length = 8 ∧ ([0x80000000, 0, 0, 0, 0, 0, 0, 0, 0, 0, 0, 0, 0, 0, 0, 0] : List Nat).length = 16
    ∧ (∀ x ∈ H0, x < 2 ^ 32)
    ∧ (∀ x ∈ ([0x80000000, 0, 0, 0, 0, 0, 0, 0, 0, 0, 0, 0, 0, 0, 0, 0] : List Nat), x < 2 ^ 32)
    ∧ nexthash [0x80000000, 0, 0, 0, 0, 0, 0, 0, 0, 0, 0, 0, 0, 0, 0, 0] H0
        = Spec.compress H0 [0x80000000, 0, 0, 0, 0, 0, 0, 0, 0, 0, 0, 0, 0, 0, 0, 0] :=
  ⟨by decide, by decide, by decide, by decide,
    (nexthash_is_compress H0 [0x80000000, 0, 0, 0, 0, 0, 0, 0, 0, 0, 0, 0, 0, 0, 0, 0]
      (by decide) (by decide) (by decide) (by decide)).1⟩

/-! ## The padding branches -/

theorem blocks_padWith_aligned (bits : Nat) (k : Nat) :
    ∀ m : List Byte, m.length = 64 * k →
      Spec.blocks (Spec.padWith bits m)
        = Spec.blocks m ++ [[0x80] ++ List.replicate 55 0 ++ bytes64 bits] := by
  induction k with
  | zero =>
    intro m hm
    have : m = [] := List.length_eq_zero.mp (by omega)
    subst this
    rw [padWith_short bits [] (by decide), blocks_short [] (by decide)]
    exact blocks_one _ rfl
  | succ k ih =>
    intro m hm
    have h1 : (m.take 64).length = 64 := by rw [List.length_take]; omega
    have h2 : (m.drop 64).length = 64 * k := by rw [List.length_drop]; omega
    rw [padWith_split bits m (by omega), blocks_append _ _ h1, ih _ h2]
    conv_rhs => rw [← List.take_append_drop 64 m, blocks_append _ _ h1]
    simp only [List.take_append_drop, List.cons_append]

theorem nextblock_finish (le : Bool) (s : Framer) (hs : s.status = PADFLAG.FINISH) :
    nextblock le s = (0, s) := nextblock_none le s (switch_finish le s hs)

theorem calls_finish (le : Bool) (s : Framer) (hs : s.status = PADFLAG.FINISH) (k : Nat) :
    (fun t => (nextblock le t).2)^[k] s = s := by
  induction k with
  | zero => rfl
  | succ k ih => rw [Function.iterate_succ_apply', ih, nextblock_finish le s hs]

theorem fread_all (M file : List Byte) (r : Nat) (hr : (fread M 64 file).1 = r) (h : r < 64) :
    file.length = r ∧ file.take r = file := by
  simp only [fread, List.length_take] at hr
  have : file.length = r := by omega
  exact ⟨this, List.take_of_length_le (by omega)⟩

set_option maxRecDepth 100000 in
/-- What the framer hands out for a file of 64 bytes `a`, fuel permitting. -/
theorem wireBlocks_64 (fuel : Nat) :
    wireBlocks true fuel (start (List.replicate 64 0) (List.replicate 64 0x61)) = none
    ∨ wireBlocks true fuel (start (List.replicate 64 0) (List.replicate 64 0x61))
      = some [List.replicate 64 0x61, [0x80] ++ List.replicate 55 0 ++ Spec.be64 512] := by
  rcases Nat.lt_or_ge fuel 3 with h3 | h3
  · left
    interval_cases fuel <;> decide
  · right
    rw [wireBlocks_start true _ _ fuel (by decide) (by decide) (by simpa using h3)]
    decide

/-- C4 as the specification states it fails: for a file of 64 bytes the framer never hands
out the data block followed by a block of `0x80` and 63 zeros and a block of 56 zeros and
the length. -/
theorem aligned_input_two_padding_blocks_counterexample :
    ¬ ∃ fuel, wireBlocks true fuel (start (List.replicate 64 0) (List.replicate 64 0x61))
      = some [List.replicate 64 0x61, [0x80] ++ List.replicate 63 0,
              List.replicate 56 0 ++ Spec.be64 512] := by
  rintro ⟨fuel, h⟩
  rcases wireBlocks_64 fuel with h1 | h1
  · rw [h1] at h; cases h
  · rw [h1] at h
    have hlen := congrArg (Option.map List.length) h
    simp at hlen

/-- C4, amended: for every input whose length is a positive multiple of 64 bytes, after
the last full data block the framer hands out exactly one further block, `0x80`, 55 zero
bytes and the 8-byte big-endian bit length, and then returns 0. -/
theorem aligned_input_one_padding_block (le : Bool) (M m : List Byte) (fuel : Nat)
    (hM : M.length = 64) (hpos : 0 < m.length) (hmul : m.length % 64 = 0)
    (hf : m.length / 64 + 2 ≤ fuel) :
    wireBlocks le fuel (start M m)
      = some (Spec.blocks m ++ [[0x80] ++ List.replicate 55 0 ++ Spec.be64 (8 * m.length)])
    ∧ (Spec.blocks m).flatten = m ∧ 0 < (Spec.blocks m).length := by
  have hk : m.length = 64 * (m.length / 64) := by omega
  have hb : (Spec.blocks m).length = m.length / 64 := by
    simp only [Spec.blocks, List.length_map, List.length_range]
  refine ⟨?_, blocks_join _ m hk, by omega⟩
  have hbits : ((start M m).nobits + 8 * (start M m).infile.length) % 2 ^ 64
      = (8 * m.length) % 2 ^ 64 := by
    show (0 + 8 * m.length) % 2 ^ 64 = _
    rw [Nat.zero_add]
  have hin : (start M m).infile = m := rfl
  rw [wireBlocks_read le fuel (start M m) rfl hM (by show (m.length + 8) / 64 + 2 ≤ fuel; omega),
    hbits, hin, blocks_padWith_aligned _ _ m hk, bytes64_mod, be64_eq_bytes64]

/-- Witness of C4 (amended): a file of 64 bytes. -/
theorem aligned_input_one_padding_block_witness :
    (List.replicate 64 (0 : Byte)).length = 64 ∧ 0 < (List.replicate 64 (0x61 : Byte)).length
    ∧ (List.replicate 64 (0x61 : Byte)).length % 64 = 0
    ∧ (List.replicate 64 (0x61 : Byte)).length / 64 + 2 ≤ 3
    ∧ wireBlocks true 3 (start (List.replicate 64 0) (List.replicate 64 0x61))
      = some (Spec.blocks (List.replicate 64 0x61) ++ [[0x80] ++ List.replicate 55 0
          ++ Spec.be64 (8 * (List.replicate 64 (0x61 : Byte)).length)]) :=
  ⟨by decide, by decide, by decide, by decide,
    (aligned_input_one_padding_block true (List.replicate 64 0) (List.replicate 64 0x61) 3
      (by decide) (by decide) (by decide) (by decide)).1⟩

/-- C5: a call of `nextblock` in phase `READ` whose read yields `r` bytes, `56 ≤ r ≤ 63`,
hands out the `r` data bytes, `0x80` and zeros up to byte 63 (no length field) and moves
to `PAD0`; the next call hands out 56 zero bytes and the 8-byte big-endian encoding of
the bit counter, returns 1 and moves to `FINISH`, and the call after it returns 0. -/
theorem read_56_to_63 (le : Bool) (s : Framer) (r : Nat) (hs : s.status = PADFLAG.READ)
    (hM : s.M.length = 64) (hr : (fread s.M 64 s.infile).1 = r) (h56 : 56 ≤ r) (h63 : r ≤ 63) :
    (∃ w, nextblockSwitch le s = some w
        ∧ w.M = s.infile.take r ++ [0x80] ++ List.replicate (63 - r) 0)
    ∧ (nextblock le s).1 = 1
    ∧ (nextblock le s).2.status = PADFLAG.PAD0
    ∧ (nextblock le s).2.nobits = (s.nobits + 8 * r) % 2 ^ 64
    ∧ (∃ w, nextblockSwitch le (nextblock le s).2 = some w
        ∧ w.M = List.replicate 56 0 ++ Spec.be64 (nextblock le s).2.nobits)
    ∧ (nextblock le (nextblock le s).2).1 = 1
    ∧ (nextblock le (nextblock le s).2).2.status = PADFLAG.FINISH
    ∧ (nextblock le (nextblock le s).2).2.nobits = (nextblock le s).2.nobits
    ∧ (nextblock le (nextblock le (nextblock le s).2).2).1 = 0 := by
  obtain ⟨hlen, htake⟩ := fread_all s.M s.infile r hr (by omega)
  have hsw := switch_mid le s hs hM (by omega) (by omega)
  have hl := switch_length le s _ hM hsw
  obtain ⟨hr1, hM1, _, hn1, hs1⟩ := nextblock_after le s _ hsw
  have hs1' : (nextblock le s).2.status = PADFLAG.PAD0 := hs1
  have hl1 : (nextblock le s).2.M.length = 64 := by
    rw [hM1]; exact toHostLoop_length le _ hl
  have hsw2 := switch_pad0 le (nextblock le s).2 hs1' hl1
  obtain ⟨hr2, _, _, hn2, hs2⟩ := nextblock_after le _ _ hsw2
  have hs2' : (nextblock le (nextblock le s).2).2.status = PADFLAG.FINISH := hs2
  refine ⟨⟨_, hsw, by rw [htake, hlen]⟩, hr1, hs1', by rw [hn1, hlen], ⟨_, hsw2, ?_⟩, hr2, hs2',
    hn2, ?_⟩
  · rw [be64_eq_bytes64]
  · rw [nextblock_finish le _ hs2']

/-- Witness of C5: a file of 60 bytes. -/
theorem read_56_to_63_witness :
    (start (List.replicate 64 0) (List.replicate 60 0x61)).status = PADFLAG.READ
    ∧ (start (List.replicate 64 0) (List.replicate 60 0x61)).M.length = 64
    ∧ (fread (start (List.replicate 64 0) (List.replicate 60 0x61)).M 64
        (start (List.replicate 64 0) (List.replicate 60 0x61)).infile).1 = 60
    ∧ 56 ≤ 60 ∧ 60 ≤ 63
    ∧ (nextblock true (nextblock true (start (List.replicate 64 0)
        (List.replicate 60 0x61))).2).2.status = PADFLAG.FINISH :=
  ⟨by decide, by decide, by decide, by decide, by decide,
    (read_56_to_63 true (start (List.replicate 64 0) (List.replicate 60 0x61)) 60
      (by decide) (by decide) (by decide) (by decide) (by decide)).2.2.2.2.2.2.1⟩

/-- C6: a call of `nextblock` in phase `READ` whose read yields `r < 56` bytes hands out a
single block: the `r` data bytes, `0x80`, zeros in bytes `r + 1 .. 55`, and in bytes
`56 .. 63` the 8-byte big-endian encoding of the updated bit counter; it returns 1 and
moves to `FINISH`. -/
theorem read_below_56 (le : Bool) (s : Framer) (r : Nat) (hs : s.status = PADFLAG.READ)
    (hM : s.M.length = 64) (hr : (fread s.M 64 s.infile).1 = r) (h56 : r < 56) :
    (∃ w, nextblockSwitch le s = some w
        ∧ w.M = s.infile.take r ++ [0x80] ++ List.replicate (55 - r) 0
                  ++ Spec.be64 (nextblock le s).2.nobits
        ∧ w.M.length = 64)
    ∧ (nextblock le s).1 = 1
    ∧ (nextblock le s).2.status = PADFLAG.FINISH
    ∧ (nextblock le s).2.nobits = (s.nobits + 8 * r) % 2 ^ 64
    ∧ (nextblock le (nextblock le s).2).1 = 0 := by
  obtain ⟨hlen, htake⟩ := fread_all s.M s.infile r hr (by omega)
  have hsw := switch_short le s hs hM (by omega)
  have hl := switch_length le s _ hM hsw
  obtain ⟨hr1, _, _, hn1, hs1⟩ := nextblock_after le s _ hsw
  have hs1' : (nextblock le s).2.status = PADFLAG.FINISH := hs1
  refine ⟨⟨_, hsw, ?_, hl⟩, hr1, hs1', by rw [hn1, hlen], ?_⟩
  · rw [be64_eq_bytes64, hn1, htake, hlen]
  · rw [nextblock_finish le _ hs1']

/-- Witness of C6: the file `abc`. -/
theorem read_below_56_witness :
    (start (List.replicate 64 0) [0x61, 0x62, 0x63]).status = PADFLAG.READ
    ∧ (start (List.replicate 64 0) [0x61, 0x62, 0x63]).M.length = 64
    ∧ (fread (start (List.replicate 64 0) [0x61, 0x62, 0x63]).M 64
        (start (List.replicate 64 0) [0x61, 0x62, 0x63]).infile).1 = 3
    ∧ 3 < 56
    ∧ (nextblock false (start (List.replicate 64 0) [0x61, 0x62, 0x63])).2.status
        = PADFLAG.FINISH :=
  ⟨by decide, by decide, by decide, by decide,
    (read_below_56 false (start (List.replicate 64 0) [0x61, 0x62, 0x63]) 3
      (by decide) (by decide) (by decide) (by decide)).2.2.1⟩

/-- C7: for the empty source, from phase `READ` and bit counter 0, the framer hands out
exactly one block, `0x80`, 55 zero bytes and an 8-byte zero length, and every later call
of `nextblock` returns 0. -/
theorem empty_source_one_block (le : Bool) (M : List Byte) (hM : M.length = 64) :
    (∀ fuel, 2 ≤ fuel → wireBlocks le fuel (start M [])
      = some [[0x80] ++ List.replicate 55 0 ++ List.replicate 8 0])
    ∧ (nextblock le (start M [])).1 = 1
    ∧ ∀ k, (nextblock le ((fun t => (nextblock le t).2)^[k + 1] (start M []))).1 = 0 := by
  have hsw := switch_short le (start M []) rfl hM (by show ([] : List Byte).length < 56; decide)
  obtain ⟨hr1, _, _, _, hs1⟩ := nextblock_after le _ _ hsw
  have hs1' : (nextblock le (start M [])).2.status = PADFLAG.FINISH := hs1
  refine ⟨?_, hr1, ?_⟩
  · intro fuel hf
    rw [wireBlocks_start le M [] fuel hM (by decide) (by simpa using hf)]
    decide
  · intro k
    rw [Function.iterate_succ_apply, calls_finish le _ hs1' k, nextblock_finish le _ hs1']

/-- Witness of C7: a zeroed block buffer on a little-endian host. -/
theorem empty_source_one_block_witness :
    (List.replicate 64 (0 : Byte)).length = 64
    ∧ (nextblock true (start (List.replicate 64 0) [])).1 = 1
    ∧ (nextblock true ((fun t => (nextblock true t).2)^[3 + 1]
        (start (List.replicate 64 0) []))).1 = 0 :=
  ⟨by decide, (empty_source_one_block true (List.replicate 64 0) (by decide)).2.1,
    (empty_source_one_block true (List.replicate 64 0) (by decide)).2.2 3⟩

/-! ## The printed digest -/

theorem hexDigits_spec (fuel : Nat) :
    ∀ (x : Nat) (acc : List Char), x < 16 ^ fuel → 0 < fuel →
      ∃ d, 1 ≤ d ∧ d ≤ fuel ∧ x < 16 ^ d ∧
        hexDigits fuel x acc
          = (List.range d).map (fun j => hexDigit (x / 16 ^ (d - 1 - j) % 16)) ++ acc := by
  induction fuel with
  | zero => intro x acc _ h; omega
  | succ f ih =>
    intro x acc hx _
    by_cases h16 : x < 16
    · refine ⟨1, le_refl _, by omega, by simpa using h16, ?_⟩
      simp only [hexDigits, h16, if_true]
      simp [List.range_succ, Nat.mod_eq_of_lt h16]
    · have hf : 0 < f := by
        rcases Nat.eq_zero_or_pos f with h0 | h0
        · subst h0; simp at hx; omega
        · exact h0
      have hx' : x / 16 < 16 ^ f := by
        rw [Nat.div_lt_iff_lt_mul (by decide)]; rw [pow_succ] at hx; exact hx
      obtain ⟨d, hd1, hd2, hd3, hd4⟩ := ih (x / 16) (hexDigit (x % 16) :: acc) hx' hf
      refine ⟨d + 1, by omega, by omega, ?_, ?_⟩
      · rw [pow_succ]; omega
      · simp only [hexDigits, h16, if_false, hd4, List.range_succ, List.map_append,
          List.map_cons, List.map_nil, List.append_assoc, List.singleton_append]
        congr 1
        · apply List.map_congr_left
          intro j hj
          have hj' : j < d := List.mem_range.mp hj
          have e : d + 1 - 1 - j = (d - 1 - j) + 1 := by omega
          rw [e, pow_succ, Nat.mul_comm, Nat.div_div_eq_div_mul]
        · simp

theorem hexDigit_zero : hexDigit 0 = '0' := by decide

theorem pad_digits (x d : Nat) (hd : d ≤ 8) (hx : x < 16 ^ d) :
    List.replicate (8 - d) '0' ++ (List.range d).map (fun j => hexDigit (x / 16 ^ (d - 1 - j) % 16))
      = (List.range 8).map (fun j => hexDigit (x / 16 ^ (7 - j) % 16)) := by
  apply List.ext_getElem
  · simp only [List.length_append, List.length_replicate, List.length_map, List.length_range]
    omega
  · intro i h1 h2
    simp only [List.length_map, List.length_range] at h2
    rw [List.getElem_map, List.getElem_range]
    by_cases hi : i < 8 - d
    · rw [List.getElem_append_left (by simpa using hi), List.getElem_replicate]
      have : x / 16 ^ (7 - i) = 0 := by
        apply Nat.div_eq_of_lt
        exact lt_of_lt_of_le hx (Nat.pow_le_pow_right (by decide) (by omega))
      rw [this]; exact hexDigit_zero.symm
    · rw [List.getElem_append_right (by simpa using hi), List.getElem_map, List.getElem_range]
      simp only [List.length_replicate]
      have e : d - 1 - (i - (8 - d)) = 7 - i := by omega
      rw [e]

/-- The conversion `%08x` of a 32-bit value writes its eight hexadecimal digits. -/
theorem printf08x_eq (x : Nat) :
    printf08x x = (List.range 8).map (fun j => hexDigit (u32 x / 16 ^ (7 - j) % 16)) := by
  have hx : u32 x < 16 ^ 8 := u32_lt x
  obtain ⟨d, _, hd2, hd3, hd4⟩ := hexDigits_spec 8 (u32 x) [] hx (by decide)
  simp only [printf08x, hd4, List.append_nil, List.length_map, List.length_range]
  exact pad_digits _ d hd2 hd3

theorem printf08x_length (x : Nat) : (printf08x x).length = 8 := by
  rw [printf08x_eq]; simp

theorem hexDigit_chars : ∀ d, d < 16 →
    hexDigit d = "0123456789abcdef".toList.getD d '0'
    ∧ hexDigit d ∈ "0123456789abcdef".toList
    ∧ "0123456789abcdef".toList.indexOf (hexDigit d) = d := by decide

theorem readHex_digits (y : Nat) (hy : y < 2 ^ 32) :
    Spec.readHex ((List.range 8).map (fun j => hexDigit (y / 16 ^ (7 - j) % 16))) = y := by
  have h (k : Nat) : "0123456789abcdef".toList.indexOf (hexDigit (y / k % 16)) = y / k % 16 :=
    (hexDigit_chars _ (Nat.mod_lt _ (by decide))).2.2
  simp only [Spec.readHex, List.range, List.range.loop, List.map_cons, List.map_nil,
    List.foldl_cons, List.foldl_nil, h]
  norm_num
  omega

theorem printHash_eq (H : List Nat) :
    printHash H = ((List.range 8).map (fun i => printf08x (H.getD i 0))).flatten := by
  simp [printHash, List.range, List.range.loop, List.append_assoc]

theorem flatten_slice (ls : List (List Char)) (hl : ∀ l ∈ ls, l.length = 8) :
    ∀ i (hi : i < ls.length), (ls.flatten.drop (8 * i)).take 8 = ls[i] := by
  induction ls with
  | nil => intro i hi; simp at hi
  | cons l ls ih =>
    intro i hi
    have h8 : l.length = 8 := hl l (List.mem_cons_self _ _)
    cases i with
    | zero =>
      simp only [Nat.mul_zero, List.drop_zero, List.flatten_cons, List.getElem_cons_zero]
      exact List.take_left' h8
    | succ i =>
      have e : 8 * (i + 1) = l.length + 8 * i := by omega
      rw [List.flatten_cons, e, ← List.drop_drop, List.drop_left' rfl, List.getElem_cons_succ]
      exact ih (fun l' h' => hl l' (List.mem_cons_of_mem _ h')) i (by simpa using hi)

/-- The groups of eight characters of the printed digest. -/
theorem printHash_group (H : List Nat) (i : Nat) (hi : i < 8) :
    ((printHash H).drop (8 * i)).take 8 = printf08x (H.getD i 0) := by
  rw [printHash_eq, flatten_slice _ _ i (by simpa using hi)]
  · simp
  · intro l hl
    simp only [List.mem_map] at hl
    obtain ⟨j, _, rfl⟩ := hl
    exact printf08x_length _

theorem printHash_length (H : List Nat) : (printHash H).length = 64 := by
  rw [printHash_eq, List.length_flatten]
  simp [List.range, List.range.loop, printf08x_length]

theorem printHash_chars (H : List Nat) : ∀ c ∈ printHash H, c ∈ "0123456789abcdef".toList := by
  intro c hc
  rw [printHash_eq] at hc
  simp only [List.mem_flatten, List.mem_map] at hc
  obtain ⟨l, ⟨i, _, rfl⟩, hcl⟩ := hc
  rw [printf08x_eq] at hcl
  simp only [List.mem_map] at hcl
  obtain ⟨j, _, rfl⟩ := hcl
  exact (hexDigit_chars _ (Nat.mod_lt _ (by decide))).2.1

theorem fold_nexthash_ok (bs : List (List Byte)) :
    ∀ H : List Nat, H.length = 8 → (∀ x ∈ H, x < 2 ^ 32) →
      (bs.foldl (fun H B => nexthash (Spec.beWords B) H) H).length = 8
      ∧ ∀ x ∈ bs.foldl (fun H B => nexthash (Spec.beWords B) H) H, x < 2 ^ 32 := by
  induction bs with
  | nil => intro H h1 h2; exact ⟨h1, h2⟩
  | cons B bs ih =>
    intro H _ _
    rw [List.foldl_cons]
    exact ih _ (nexthash_length _ _) (nexthash_lt _ _)

/-- The loop of `main` ends for every file and leaves eight 32-bit words. -/
theorem finalHash_ok (le : Bool) (M m : List Byte) (fuel : Nat) (hM : M.length = 64)
    (hf : (m.length + 8) / 64 + 2 ≤ fuel) :
    ∃ H, finalHash le M m fuel = some H ∧ H.length = 8 ∧ ∀ x ∈ H, x < 2 ^ 32 := by
  have h1 := wireBlocks_read le fuel (start M m) rfl hM hf
  have h2 := hashLoop_nexthash le fuel (start M m) H0 _ hM h1
  exact ⟨_, h2, fold_nexthash_ok _ H0 rfl H0_lt⟩

set_option maxRecDepth 100000 in
/-- The hash state after the only block of the empty message, and its print. -/
theorem empty_hash_value :
    (Spec.blocks (Spec.pad [])).foldl (fun H B => nexthash (Spec.beWords B) H) H0
      = [0xe3b0c442, 0x98fc1c14, 0x9afbf4c8, 0x996fb924,
         0x27ae41e4, 0x649b934c, 0xa495991b, 0x7852b855]
    ∧ String.mk (printHash [0xe3b0c442, 0x98fc1c14, 0x9afbf4c8, 0x996fb924,
         0x27ae41e4, 0x649b934c, 0xa495991b, 0x7852b855])
      = "e3b0c44298fc1c149afbf4c8996fb92427ae41e4649b934ca495991b7852b855"
    ∧ String.mk (printHash [0xe3b0c442, 0x98fc1c14, 0x9afbf4c8, 0x996fb924,
         0x27ae41e4, 0x649b934c, 0xa495991b, 0x7852b855] ++ ['\n'])
      = "e3b0c44298fc1c149afbf4c8996fb92427ae41e4649b934ca495991b7852b855\n" := by
  refine ⟨?_, ?_, ?_⟩ <;> decide

/-- C8: the digest the program prints for the empty input is
`e3b0c44298fc1c149afbf4c8996fb92427ae41e4649b934ca495991b7852b855`. -/
theorem empty_input_digest (le : Bool) (M : List Byte) (fuel : Nat) (hM : M.length = 64)
    (hf : 2 ≤ fuel) :
    (finalHash le M [] fuel).map (fun H => String.mk (printHash H))
      = some "e3b0c44298fc1c149afbf4c8996fb92427ae41e4649b934ca495991b7852b855"
    ∧ main le M [] fuel
      = some "e3b0c44298fc1c149afbf4c8996fb92427ae41e4649b934ca495991b7852b855\n" := by
  have h := finalHash_nexthash le M [] fuel hM (by decide) (by simpa using hf)
  rw [main, h, empty_hash_value.1, Option.map_some', Option.map_some', empty_hash_value.2.1,
    empty_hash_value.2.2]
  exact ⟨rfl, rfl⟩

/-- Witness of C8: a little-endian host, a zeroed buffer, two calls of `nextblock`. -/
theorem empty_input_digest_witness :
    (List.replicate 64 (0 : Byte)).length = 64 ∧ 2 ≤ 2
    ∧ main true (List.replicate 64 0) [] 2
      = some "e3b0c44298fc1c149afbf4c8996fb92427ae41e4649b934ca495991b7852b855\n" :=
  ⟨by decide, by decide,
    (empty_input_digest true (List.replicate 64 0) 2 (by decide) (by decide)).2⟩

set_option maxRecDepth 100000 in
/-- The hash state after the only block of the message `abc`, and its print. -/
theorem abc_hash_value :
    (Spec.blocks (Spec.pad [0x61, 0x62, 0x63])).foldl
        (fun H B => nexthash (Spec.beWords B) H) H0
      = [0xba7816bf, 0x8f01cfea, 0x414140de, 0x5dae2223,
         0xb00361a3, 0x96177a9c, 0xb410ff61, 0xf20015ad]
    ∧ String.mk (printHash [0xba7816bf, 0x8f01cfea, 0x414140de, 0x5dae2223,
         0xb00361a3, 0x96177a9c, 0xb410ff61, 0xf20015ad])
      = "ba7816bf8f01cfea414140de5dae2223b00361a396177a9cb410ff61f20015ad"
    ∧ String.mk (printHash [0xba7816bf, 0x8f01cfea, 0x414140de, 0x5dae2223,
         0xb00361a3, 0x96177a9c, 0xb410ff61, 0xf20015ad] ++ ['\n'])
      = "ba7816bf8f01cfea414140de5dae2223b00361a396177a9cb410ff61f20015ad\n" := by
  refine ⟨?_, ?_, ?_⟩ <;> decide

/-- C9: the digest the program prints for the three bytes `abc` is
`ba7816bf8f01cfea414140de5dae2223b00361a396177a9cb410ff61f20015ad`. -/
theorem abc_digest (le : Bool) (M : List Byte) (fuel : Nat) (hM : M.length = 64)
    (hf : 2 ≤ fuel) :
    (finalHash le M [0x61, 0x62, 0x63] fuel).map (fun H => String.mk (printHash H))
      = some "ba7816bf8f01cfea414140de5dae2223b00361a396177a9cb410ff61f20015ad"
    ∧ main le M [0x61, 0x62, 0x63] fuel
      = some "ba7816bf8f01cfea414140de5dae2223b00361a396177a9cb410ff61f20015ad\n" := by
  have h := finalHash_nexthash le M [0x61, 0x62, 0x63] fuel hM (by decide) (by simpa using hf)
  rw [main, h, abc_hash_value.1, Option.map_some', Option.map_some', abc_hash_value.2.1,
    abc_hash_value.2.2]
  exact ⟨rfl, rfl⟩

/-- Witness of C9: a big-endian host, a buffer of arbitrary bytes. -/
theorem abc_digest_witness :
    (List.replicate 64 (0xff : Byte)).length = 64 ∧ 2 ≤ 5
    ∧ main false (List.replicate 64 0xff) [0x61, 0x62, 0x63] 5
      = some "ba7816bf8f01cfea414140de5dae2223b00361a396177a9cb410ff61f20015ad\n" :=
  ⟨by decide, by decide,
    (abc_digest false (List.replicate 64 0xff) 5 (by decide) (by decide)).2⟩

/-- C10: for every input the printed digest has exactly 64 characters, each one of
`0-9a-f`; it is the concatenation of `H[0]` .. `H[7]`, each word as exactly eight
hexadecimal digits, most significant first, and each group of eight characters read back
in base 16 is the state word. -/
theorem digest_is_64_hex_chars (le : Bool) (M m : List Byte) (fuel : Nat) (hM : M.length = 64)
    (hf : (m.length + 8) / 64 + 2 ≤ fuel) :
    ∃ H, finalHash le M m fuel = some H ∧ H.length = 8
      ∧ main le M m fuel = some (String.mk (printHash H ++ ['\n']))
      ∧ (printHash H).length = 64
      ∧ (∀ c ∈ printHash H, c ∈ "0123456789abcdef".toList)
      ∧ ∀ i, i < 8 →
          ((printHash H).drop (8 * i)).take 8
            = (List.range 8).map (fun j =>
                "0123456789abcdef".toList.getD (H.getD i 0 / 16 ^ (7 - j) % 16) '0')
          ∧ Spec.readHex (((printHash H).drop (8 * i)).take 8) = H.getD i 0 := by
  obtain ⟨H, h1, h2, h3⟩ := finalHash_ok le M m fuel hM hf
  refine ⟨H, h1, h2, by rw [main, h1]; rfl, printHash_length H, printHash_chars H, ?_⟩
  intro i hi
  have hw : H.getD i 0 < 2 ^ 32 := getD_lt H h3 i
  have hu : u32 (H.getD i 0) = H.getD i 0 := Nat.mod_eq_of_lt hw
  rw [printHash_group H i hi, printf08x_eq, hu]
  refine ⟨?_, readHex_digits _ hw⟩
  apply List.map_congr_left
  intro j _
  exact (hexDigit_chars _ (Nat.mod_lt _ (by decide))).1

/-- Witness of C10: a file of 100 bytes. -/
theorem digest_is_64_hex_chars_witness :
    (List.replicate 64 (0 : Byte)).length = 64
    ∧ ((List.replicate 100 (0x61 : Byte)).length + 8) / 64 + 2 ≤ 3
    ∧ ∃ H, finalHash true (List.replicate 64 0) (List.replicate 100 0x61) 3 = some H
        ∧ (printHash H).length = 64 :=
  ⟨by decide, by decide,
    (digest_is_64_hex_chars true (List.replicate 64 0) (List.replicate 100 0x61) 3 (by decide)
      (by decide)).imp (fun _ h => ⟨h.1, h.2.2.2.1⟩)⟩

/-! ## The bit counter and the phase -/

theorem readCase_fields (le : Bool) (M : List Byte) (n : Nat) (f : List Byte) (b : Nat) :
    (readCase le M n f b).infile = f
    ∧ (readCase le M n f b).nobits = (b + 8 * n) % 2 ^ 64
    ∧ (readCase le M n f b).status
        = if n < 56 then PADFLAG.FINISH else if n < 64 then PADFLAG.PAD0 else PADFLAG.READ := by
  simp only [readCase, u64_bits]
  split_ifs <;> exact ⟨rfl, rfl, rfl⟩

theorem switch_read (le : Bool) (s : Framer) (hs : s.status = PADFLAG.READ) :
    nextblockSwitch le s = some (readCase le (fread s.M 64 s.infile).2.1
      (fread s.M 64 s.infile).1 (fread s.M 64 s.infile).2.2 s.nobits) := by
  simp only [nextblockSwitch, hs]

theorem fread_count (M f : List Byte) :
    (fread M 64 f).1 = f.length - (f.drop 64).length ∧ (fread M 64 f).2.2 = f.drop 64
    ∧ (fread M 64 f).1 = min 64 f.length := by
  refine ⟨?_, rfl, ?_⟩
  · simp only [fread, List.length_take, List.length_drop]; omega
  · simp only [fread, List.length_take]

/-- A call in phase `READ` takes up to 64 bytes from the file and adds eight times their
number to the bit counter; its next phase depends on that number alone. -/
theorem nextblock_read (le : Bool) (s : Framer) (hs : s.status = PADFLAG.READ) :
    (nextblock le s).2.infile = s.infile.drop 64
    ∧ (nextblock le s).2.nobits
        = (s.nobits + 8 * (s.infile.length - (s.infile.drop 64).length)) % 2 ^ 64
    ∧ (nextblock le s).2.status
        = if s.infile.length < 56 then PADFLAG.FINISH
          else if s.infile.length < 64 then PADFLAG.PAD0 else PADFLAG.READ := by
  obtain ⟨_, _, hi, hn, hst⟩ := nextblock_after le s _ (switch_read le s hs)
  obtain ⟨h1, h2, h3⟩ := readCase_fields le (fread s.M 64 s.infile).2.1
    (fread s.M 64 s.infile).1 (fread s.M 64 s.infile).2.2 s.nobits
  obtain ⟨c1, c2, c3⟩ := fread_count s.M s.infile
  refine ⟨by rw [hi, h1, c2], by rw [hn, h2, c1], ?_⟩
  rw [hst, h3, c3]
  by_cases a : s.infile.length < 56
  · simp [a, show min 64 s.infile.length < 56 by omega]
  · by_cases b : s.infile.length < 64
    · simp [a, b, show ¬ min 64 s.infile.length < 56 by omega,
        show min 64 s.infile.length < 64 by omega]
    · simp [a, b, show ¬ min 64 s.infile.length < 56 by omega,
        show ¬ min 64 s.infile.length < 64 by omega]

/-- A call in phase `PAD0` changes the block and the phase only. -/
theorem nextblock_pad0 (le : Bool) (s : Framer) (hs : s.status = PADFLAG.PAD0) :
    (nextblock le s).1 = 1 ∧ (nextblock le s).2.infile = s.infile
    ∧ (nextblock le s).2.nobits = s.nobits ∧ (nextblock le s).2.status = PADFLAG.FINISH := by
  have hsw : nextblockSwitch le s = some
      { s with M := store64 le (zeroLoop s.M 0 56) 7 (htobe64 le s.nobits),
               status := PADFLAG.FINISH } := by
    simp only [nextblockSwitch, hs]
  obtain ⟨hr, _, hi, hn, hst⟩ := nextblock_after le s _ hsw
  exact ⟨hr, hi, hn, hst⟩

theorem switch_none_iff (le : Bool) (s : Framer) :
    nextblockSwitch le s = none ↔ s.status = PADFLAG.FINISH := by
  constructor
  · intro h
    cases hs : s.status with
    | FINISH => rfl
    | PAD0 => simp [nextblockSwitch, hs] at h
    | READ => rw [switch_read le s hs] at h; cases h
  · exact switch_finish le s

theorem nextblock_zero_iff (le : Bool) (s : Framer) :
    (nextblock le s).1 = 0 ↔ s.status = PADFLAG.FINISH := by
  rw [← switch_none_iff le s]
  cases h : nextblockSwitch le s with
  | none => simp [nextblock, h]
  | some w => simp [nextblock, h]

/-- The state after `k` calls of `nextblock` from the start of a file: the unread rest is
a suffix of the file and the counter holds eight times the number of bytes read. -/
theorem calls_counter (le : Bool) (M m : List Byte) (k : Nat) :
    ((fun t => (nextblock le t).2)^[k] (start M m)).infile
      = m.drop (m.length - ((fun t => (nextblock le t).2)^[k] (start M m)).infile.length)
    ∧ ((fun t => (nextblock le t).2)^[k] (start M m)).nobits
      = (8 * (m.length - ((fun t => (nextblock le t).2)^[k] (start M m)).infile.length))
          % 2 ^ 64 := by
  induction k with
  | zero => simp [start]
  | succ k ih =>
    rw [Function.iterate_succ_apply']
    generalize (fun t => (nextblock le t).2)^[k] (start M m) = s at ih ⊢
    obtain ⟨h1, h2⟩ := ih
    have hle : s.infile.length ≤ m.length := by
      have := congrArg List.length h1
      simp only [List.length_drop] at this
      omega
    cases hs : s.status with
    | READ =>
      obtain ⟨a, b, _⟩ := nextblock_read le s hs
      have hd : (s.infile.drop 64).length = s.infile.length - 64 := List.length_drop _ _
      rw [hd] at b
      have e1 : (nextblock le s).2.infile.length = s.infile.length - 64 := by rw [a, hd]
      refine ⟨?_, ?_⟩
      · rw [e1, a]
        conv_lhs => rw [h1]
        rw [List.drop_drop]
        rcases Nat.lt_or_ge s.infile.length 64 with hl | hl
        · rw [List.drop_eq_nil_of_le (by omega), List.drop_eq_nil_of_le (by omega)]
        · congr 1; omega
      · have key : m.length - (s.infile.length - 64)
            = (m.length - s.infile.length) + (s.infile.length - (s.infile.length - 64)) := by
          omega
        rw [e1, b, h2, key]
        generalize m.length - s.infile.length = A
        generalize s.infile.length - (s.infile.length - 64) = r
        omega
    | PAD0 =>
      obtain ⟨_, a, b, _⟩ := nextblock_pad0 le s hs
      rw [a, b]; exact ⟨h1, h2⟩
    | FINISH =>
      rw [nextblock_finish le s hs]; exact ⟨h1, h2⟩

/-- C11: after any number of calls of `nextblock` from bit counter 0 and phase `READ`, the
bit counter is 8 times the number of bytes read from the source so far, exactly when that
number is below `2 ^ 61` and modulo `2 ^ 64` otherwise; calls in phase `PAD0` or `FINISH`
never change it. -/
theorem bit_counter_invariant (le : Bool) (M m : List Byte) (k : Nat) :
    ((fun t => (nextblock le t).2)^[k] (start M m)).infile
      = m.drop (m.length - ((fun t => (nextblock le t).2)^[k] (start M m)).infile.length)
    ∧ ((fun t => (nextblock le t).2)^[k] (start M m)).nobits
      = (8 * (m.length - ((fun t => (nextblock le t).2)^[k] (start M m)).infile.length))
          % 2 ^ 64
    ∧ (m.length - ((fun t => (nextblock le t).2)^[k] (start M m)).infile.length < 2 ^ 61 →
        ((fun t => (nextblock le t).2)^[k] (start M m)).nobits
          = 8 * (m.length - ((fun t => (nextblock le t).2)^[k] (start M m)).infile.length))
    ∧ (∀ t : Framer, t.status = PADFLAG.PAD0 ∨ t.status = PADFLAG.FINISH →
        (nextblock le t).2.nobits = t.nobits ∧ (nextblock le t).2.infile = t.infile) := by
  obtain ⟨h1, h2⟩ := calls_counter le M m k
  refine ⟨h1, h2, ?_, ?_⟩
  · intro hlt
    rw [h2]; omega
  · intro t ht
    rcases ht with ht | ht
    · obtain ⟨_, a, b, _⟩ := nextblock_pad0 le t ht
      exact ⟨b, a⟩
    · rw [nextblock_finish le t ht]; exact ⟨rfl, rfl⟩

/-- Witness of C11: a file of 100 bytes after two calls, all of it read. -/
theorem bit_counter_invariant_witness :
    (List.replicate 100 (0x61 : Byte)).length
        - ((fun t => (nextblock true t).2)^[2]
            (start (List.replicate 64 0) (List.replicate 100 0x61))).infile.length < 2 ^ 61
    ∧ ((fun t => (nextblock true t).2)^[2]
        (start (List.replicate 64 0) (List.replicate 100 0x61))).nobits
      = 8 * ((List.replicate 100 (0x61 : Byte)).length
          - ((fun t => (nextblock true t).2)^[2]
              (start (List.replicate 64 0) (List.replicate 100 0x61))).infile.length) :=
  ⟨by decide,
    (bit_counter_invariant true (List.replicate 64 0) (List.replicate 100 0x61) 2).2.2.1
      (by decide)⟩

/-- C12: for every call of `nextblock` the phases before and after are one of
`READ → READ`, `READ → PAD0`, `READ → FINISH`, `PAD0 → FINISH`, `FINISH → FINISH`; the
phase never moves backwards and `PAD0` is left after one call.  From `READ` the next
phase is decided by the number of bytes that remained. -/
theorem phase_transitions (le : Bool) (s : Framer) :
    (s.status, (nextblock le s).2.status) ∈
      [(PADFLAG.READ, PADFLAG.READ), (PADFLAG.READ, PADFLAG.PAD0),
       (PADFLAG.READ, PADFLAG.FINISH), (PADFLAG.PAD0, PADFLAG.FINISH),
       (PADFLAG.FINISH, PADFLAG.FINISH)]
    ∧ (s.status = PADFLAG.PAD0 → (nextblock le s).2.status = PADFLAG.FINISH)
    ∧ (s.status = PADFLAG.FINISH → (nextblock le s).2.status = PADFLAG.FINISH)
    ∧ (s.status = PADFLAG.READ →
        (nextblock le s).2.status
          = if s.infile.length < 56 then PADFLAG.FINISH
            else if s.infile.length < 64 then PADFLAG.PAD0 else PADFLAG.READ) := by
  have hp : s.status = PADFLAG.PAD0 → (nextblock le s).2.status = PADFLAG.FINISH :=
    fun h => (nextblock_pad0 le s h).2.2.2
  have hf : s.status = PADFLAG.FINISH → (nextblock le s).2.status = PADFLAG.FINISH :=
    fun h => by rw [nextblock_finish le s h]; exact h
  have hr := fun h => (nextblock_read le s h).2.2
  refine ⟨?_, hp, hf, hr⟩
  cases hs : s.status with
  | READ =>
    rw [hr hs]
    split_ifs <;> decide
  | PAD0 => rw [hp hs]; decide
  | FINISH => rw [hf hs]; decide

/-- Witness of C12: the state after the first call on a file of 60 bytes is in `PAD0`. -/
theorem phase_transitions_witness :
    (nextblock true (start (List.replicate 64 0) (List.replicate 60 0x61))).2.status
      = PADFLAG.PAD0
    ∧ (nextblock true (nextblock true
        (start (List.replicate 64 0) (List.replicate 60 0x61))).2).2.status = PADFLAG.FINISH :=
  ⟨by decide,
    (phase_transitions true (nextblock true
      (start (List.replicate 64 0) (List.replicate 60 0x61))).2).2.1 (by decide)⟩

/-- C13: a call of `nextblock` in phase `FINISH` returns 0, does not read from the source
and leaves the block, the bit counter and the phase as they were; so once `nextblock`
has returned 0, every later call returns 0 as well. -/
theorem finish_is_terminal (le : Bool) (s : Framer) :
    (s.status = PADFLAG.FINISH → nextblock le s = (0, s))
    ∧ ((nextblock le s).1 = 0 →
        ∀ k, (nextblock le ((fun t => (nextblock le t).2)^[k] (nextblock le s).2)).1 = 0
          ∧ (fun t => (nextblock le t).2)^[k] (nextblock le s).2 = s) := by
  refine ⟨nextblock_finish le s, ?_⟩
  intro h0 k
  have hs : s.status = PADFLAG.FINISH := (nextblock_zero_iff le s).mp h0
  rw [nextblock_finish le s hs, calls_finish le s hs k, nextblock_finish le s hs]
  exact ⟨rfl, rfl⟩

/-- Witness of C13: the state after the only block of the empty file. -/
theorem finish_is_terminal_witness :
    (nextblock true (start (List.replicate 64 0) [])).2.status = PADFLAG.FINISH
    ∧ nextblock true (nextblock true (start (List.replicate 64 0) [])).2
      = (0, (nextblock true (start (List.replicate 64 0) [])).2) :=
  ⟨by decide,
    (finish_is_terminal true (nextblock true (start (List.replicate 64 0) [])).2).1
      (by decide)⟩

/-! ## Injectivity of the padding -/

theorem pad_injective (m1 m2 : List Byte) (h1 : m1.length < 2 ^ 61) (h2 : m2.length < 2 ^ 61)
    (h : Spec.pad m1 = Spec.pad m2) : m1 = m2 := by
  simp only [Spec.pad, Spec.padWith] at h
  obtain ⟨ha, hb⟩ := List.append_inj' h
    (by rw [(be64_decodes _ (by omega : 8 * m1.length < 2 ^ 64)).1,
      (be64_decodes _ (by omega : 8 * m2.length < 2 ^ 64)).1])
  have hl : m1.length = m2.length := by
    have := congrArg ofBytes hb
    rw [(be64_decodes _ (by omega : 8 * m1.length < 2 ^ 64)).2,
      (be64_decodes _ (by omega : 8 * m2.length < 2 ^ 64)).2] at this
    omega
  rw [List.append_assoc, List.append_assoc] at ha
  exact (List.append_inj ha hl).1

theorem blocks_length_64 (p : List Byte) : ∀ B ∈ Spec.blocks p, B.length = 64 := by
  intro B hB
  simp only [Spec.blocks, List.mem_map, List.mem_range] at hB
  obtain ⟨i, hi, rfl⟩ := hB
  simp only [List.length_take, List.length_drop]
  have : 64 * (i + 1) ≤ p.length := by
    have := Nat.div_mul_le_self p.length 64
    have : (i + 1) * 64 ≤ p.length / 64 * 64 := Nat.mul_le_mul_right 64 hi
    omega
  omega

/-- C14: the padding is injective: two different inputs, each of fewer than `2 ^ 61`
bytes, make the framer hand out different sequences of blocks; and the number of bytes
handed out is always a multiple of 64. -/
theorem padding_injective (le1 le2 : Bool) (M1 M2 m1 m2 : List Byte) (f1 f2 : Nat)
    (hM1 : M1.length = 64) (hM2 : M2.length = 64)
    (h1 : m1.length < 2 ^ 61) (h2 : m2.length < 2 ^ 61)
    (hf1 : (m1.length + 8) / 64 + 2 ≤ f1) (hf2 : (m2.length + 8) / 64 + 2 ≤ f2) :
    ∃ b1 b2, wireBlocks le1 f1 (start M1 m1) = some b1
      ∧ wireBlocks le2 f2 (start M2 m2) = some b2
      ∧ (m1 ≠ m2 → b1 ≠ b2)
      ∧ (b1 = b2 → m1 = m2)
      ∧ b1.flatten.length % 64 = 0
      ∧ (∀ B ∈ b1, B.length = 64) := by
  refine ⟨_, _, wireBlocks_start le1 M1 m1 f1 hM1 h1 hf1,
    wireBlocks_start le2 M2 m2 f2 hM2 h2 hf2, ?_, ?_, ?_, blocks_length_64 _⟩
  · intro hne hb
    apply hne
    have := congrArg List.flatten hb
    rw [Spec.pad, Spec.pad, blocks_join _ _ (padWith_length _ _),
      blocks_join _ _ (padWith_length _ _)] at this
    exact pad_injective m1 m2 h1 h2 this
  · intro hb
    have := congrArg List.flatten hb
    rw [Spec.pad, Spec.pad, blocks_join _ _ (padWith_length _ _),
      blocks_join _ _ (padWith_length _ _)] at this
    exact pad_injective m1 m2 h1 h2 this
  · rw [Spec.pad, blocks_join _ _ (padWith_length _ _), padWith_length]
    omega

/-- Witness of C14: the files `a` and `b`. -/
theorem padding_injective_witness :
    (List.replicate 64 (0 : Byte)).length = 64
    ∧ ([0x61] : List Byte).length < 2 ^ 61 ∧ ([0x62] : List Byte).length < 2 ^ 61
    ∧ (([0x61] : List Byte).length + 8) / 64 + 2 ≤ 2
    ∧ (([0x62] : List Byte).length + 8) / 64 + 2 ≤ 2
    ∧ ∃ b1 b2, wireBlocks true 2 (start (List.replicate 64 0) [0x61]) = some b1
      ∧ wireBlocks true 2 (start (List.replicate 64 0) [0x62]) = some b2
      ∧ (([0x61] : List Byte) ≠ [0x62] → b1 ≠ b2) :=
  ⟨by decide, by decide, by decide, by decide, by decide,
    (padding_injective true true (List.replicate 64 0) (List.replicate 64 0) [0x61] [0x62] 2 2
      (by decide) (by decide) (by decide) (by decide) (by decide) (by decide)).imp
      (fun _ h => h.imp (fun _ h' => ⟨h'.1, h'.2.1, h'.2.2.1⟩))⟩

/-! ## The words of a block -/

theorem threetwo_getD (le : Bool) (B : List Byte) (hB : B.length = 64) (i : Nat) (hi : i < 16) :
    (threetwo le (toHostLoop le B)).getD i 0 = ofBytes ((B.drop (4 * i)).take 4) := by
  rw [threetwo_toHostLoop le B hB]
  simp only [Spec.beWords]
  rw [List.getD_eq_getElem?_getD, List.getElem?_map, List.getElem?_range hi]
  rfl

theorem length_words (A : List Byte) (x : Nat) (hA : A.length = 56) :
    ofBytes (((A ++ bytes64 x).drop (4 * 14)).take 4) = x / 2 ^ 32 % 2 ^ 32
    ∧ ofBytes (((A ++ bytes64 x).drop (4 * 15)).take 4) = x % 2 ^ 32 := by
  have e1 : (A ++ bytes64 x).drop (4 * 14) = bytes64 x := List.drop_left' hA
  have e2 : (A ++ bytes64 x).drop (4 * 15) = (bytes64 x).drop 4 := by
    have : 4 * 15 = A.length + 4 := by omega
    rw [this, ← List.drop_drop, List.drop_left' rfl]
  rw [e1, e2]
  simp only [bytes64, List.take, List.drop, ofBytes, toByte, List.foldl_cons, List.foldl_nil]
  constructor <;> omega

theorem switch_host_independent (s : Framer) (hM : s.M.length = 64) :
    nextblockSwitch true s = nextblockSwitch false s := by
  cases hs : s.status with
  | FINISH => rw [switch_finish true s hs, switch_finish false s hs]
  | PAD0 => rw [switch_pad0 true s hs hM, switch_pad0 false s hs hM]
  | READ =>
    rcases Nat.lt_or_ge s.infile.length 56 with h1 | h1
    · rw [switch_short true s hs hM h1, switch_short false s hs hM h1]
    · rcases Nat.lt_or_ge s.infile.length 64 with h2 | h2
      · rw [switch_mid true s hs hM h1 h2, switch_mid false s hs hM h1 h2]
      · rw [switch_full true s hs hM h2, switch_full false s hs hM h2]

/-- A block after which the phase is `FINISH` ends with the bit counter. -/
theorem switch_length_field (le : Bool) (s w : Framer) (hM : s.M.length = 64)
    (hn : s.nobits < 2 ^ 64) (hsw : nextblockSwitch le s = some w)
    (hw : w.status = PADFLAG.FINISH) :
    ∃ A : List Byte, A.length = 56 ∧ w.M = A ++ bytes64 w.nobits ∧ w.nobits < 2 ^ 64 := by
  cases hs : s.status with
  | FINISH => rw [switch_finish le s hs] at hsw; cases hsw
  | PAD0 =>
    rw [switch_pad0 le s hs hM] at hsw
    cases hsw
    exact ⟨List.replicate 56 0, by simp, rfl, hn⟩
  | READ =>
    rcases Nat.lt_or_ge s.infile.length 56 with h1 | h1
    · rw [switch_short le s hs hM h1] at hsw
      cases hsw
      refine ⟨s.infile ++ [0x80] ++ List.replicate (55 - s.infile.length) 0, ?_, rfl,
        Nat.mod_lt _ (by decide)⟩
      simp only [List.length_append, List.length_replicate, List.length_cons, List.length_nil]
      omega
    · rcases Nat.lt_or_ge s.infile.length 64 with h2 | h2
      · rw [switch_mid le s hs hM h1 h2] at hsw
        cases hsw; cases hw
      · rw [switch_full le s hs hM h2] at hsw
        cases hsw; cases hw

/-- C17: for every block for which `nextblock` returns 1, word `i` of the returned block
is the big-endian value of bytes `4i .. 4i+3` of the block as the switch left it, on a
host of either byte order; in the block that carries the length field, word 14 is the
high and word 15 the low 32 bits of the bit counter. -/
theorem returned_words_big_endian (le : Bool) (s w : Framer) (hM : s.M.length = 64)
    (hn : s.nobits < 2 ^ 64) (hsw : nextblockSwitch le s = some w) :
    (nextblock le s).1 = 1
    ∧ (∀ i, i < 16 →
        (threetwo le (nextblock le s).2.M).getD i 0 = ofBytes ((w.M.drop (4 * i)).take 4))
    ∧ threetwo true (nextblock true s).2.M = threetwo false (nextblock false s).2.M
    ∧ ((nextblock le s).2.status = PADFLAG.FINISH →
        (threetwo le (nextblock le s).2.M).getD 14 0 = (nextblock le s).2.nobits / 2 ^ 32
        ∧ (threetwo le (nextblock le s).2.M).getD 15 0 = (nextblock le s).2.nobits % 2 ^ 32
        ∧ (nextblock le s).2.nobits < 2 ^ 64) := by
  have hl := switch_length le s w hM hsw
  obtain ⟨hr, hM1, _, hn1, hs1⟩ := nextblock_after le s w hsw
  have hwords : ∀ i, i < 16 →
      (threetwo le (nextblock le s).2.M).getD i 0 = ofBytes ((w.M.drop (4 * i)).take 4) := by
    intro i hi
    rw [hM1]; exact threetwo_getD le w.M hl i hi
  refine ⟨hr, hwords, ?_, ?_⟩
  · have ht : nextblockSwitch true s = some w := by
      cases le
      · rw [switch_host_independent s hM]; exact hsw
      · exact hsw
    have hf : nextblockSwitch false s = some w := by
      rw [← switch_host_independent s hM]; exact ht
    rw [(nextblock_after true s w ht).2.1, (nextblock_after false s w hf).2.1,
      threetwo_toHostLoop true w.M hl, threetwo_toHostLoop false w.M hl]
  · intro hfin
    rw [hs1] at hfin
    obtain ⟨A, hA, hwM, hwn⟩ := switch_length_field le s w hM hn hsw hfin
    obtain ⟨e14, e15⟩ := length_words A w.nobits hA
    rw [hwords 14 (by decide), hwords 15 (by decide), hn1, hwM, e14, e15]
    exact ⟨Nat.mod_eq_of_lt (by omega), rfl, hwn⟩

/-- Witness of C17: the only block of the empty file on a little-endian host. -/
theorem returned_words_big_endian_witness :
    (start (List.replicate 64 0xff) []).M.length = 64
    ∧ (start (List.replicate 64 0xff) []).nobits < 2 ^ 64
    ∧ nextblockSwitch true (start (List.replicate 64 0xff) [])
        = some { M := [0x80] ++ List.replicate 63 0, infile := [], nobits := 0,
                 status := PADFLAG.FINISH }
    ∧ (threetwo true (nextblock true (start (List.replicate 64 0xff) [])).2.M).getD 0 0
        = ofBytes [0x80, 0, 0, 0] :=
  ⟨by decide, by decide, by decide,
    (returned_words_big_endian true (start (List.replicate 64 0xff) [])
      { M := [0x80] ++ List.replicate 63 0, infile := [], nobits := 0,
        status := PADFLAG.FINISH } (by decide) (by decide) (by decide)).2.1 0 (by decide)⟩

/-! ## The number of blocks -/

theorem wireBlocks_calls (le : Bool) (fuel : Nat) :
    ∀ (s : Framer) (bs : List (List Byte)), wireBlocks le fuel s = some bs →
      (∀ k, k < bs.length → (nextblock le ((fun t => (nextblock le t).2)^[k] s)).1 = 1)
      ∧ (nextblock le ((fun t => (nextblock le t).2)^[bs.length] s)).1 = 0 := by
  induction fuel with
  | zero => intro s bs h; simp [wireBlocks] at h
  | succ fuel ih =>
    intro s bs h
    cases hsw : nextblockSwitch le s with
    | none =>
      simp only [wireBlocks, hsw, Option.some.injEq] at h
      subst h
      refine ⟨fun k hk => absurd hk (Nat.not_lt_zero k), ?_⟩
      simp only [List.length_nil, Function.iterate_zero, id_eq, nextblock_none le s hsw]
    | some w =>
      rw [wireBlocks_succ le fuel s w hsw, Option.map_eq_some'] at h
      obtain ⟨bs', h1, rfl⟩ := h
      obtain ⟨a, b⟩ := ih _ _ h1
      obtain ⟨hr, _⟩ := nextblock_after le s w hsw
      refine ⟨?_, ?_⟩
      · intro k hk
        cases k with
        | zero => simpa using hr
        | succ k =>
          rw [Function.iterate_succ_apply]
          exact a k (by simpa using hk)
      · rw [List.length_cons, Function.iterate_succ_apply]
        exact b

theorem hashLoop_short_fuel (le : Bool) (f : Nat) :
    ∀ (s : Framer) (H : List Nat),
      (∀ k, k < f → (nextblock le ((fun t => (nextblock le t).2)^[k] s)).1 = 1) →
      hashLoop le f s H = none := by
  induction f with
  | zero => intro s H _; rfl
  | succ f ih =>
    intro s H h
    have h0 : (nextblock le s).1 = 1 := by simpa using h 0 (Nat.succ_pos f)
    simp only [hashLoop, h0, one_ne_zero, if_false]
    apply ih
    intro k hk
    have := h (k + 1) (by omega)
    rwa [Function.iterate_succ_apply] at this

theorem blocks_length (p : List Byte) : (Spec.blocks p).length = p.length / 64 := by
  simp only [Spec.blocks, List.length_map, List.length_range]

/-- C18: for every input of `n` bytes the loop of the driver terminates: from phase `READ`
`nextblock` returns 1 exactly `(n + 8) / 64 + 1` times, which is `n / 64 + 1` when
`n mod 64 < 56` and `n / 64 + 2` otherwise, and then returns 0; `nexthash` is applied
once to each of these blocks. -/
theorem driver_terminates (le : Bool) (M m : List Byte) (fuel : Nat) (hM : M.length = 64)
    (hf : (m.length + 8) / 64 + 2 ≤ fuel) :
    ∃ bs, wireBlocks le fuel (start M m) = some bs
      ∧ bs.length = (m.length + 8) / 64 + 1
      ∧ (m.length % 64 < 56 → bs.length = m.length / 64 + 1)
      ∧ (56 ≤ m.length % 64 → bs.length = m.length / 64 + 2)
      ∧ (∀ k, k < bs.length →
          (nextblock le ((fun t => (nextblock le t).2)^[k] (start M m))).1 = 1)
      ∧ (nextblock le ((fun t => (nextblock le t).2)^[bs.length] (start M m))).1 = 0
      ∧ finalHash le M m fuel
          = some (bs.foldl (fun H B => nexthash (Spec.beWords B) H) H0)
      ∧ (∀ f, f ≤ bs.length → hashLoop le f (start M m) H0 = none) := by
  have hw := wireBlocks_read le fuel (start M m) rfl hM hf
  have hlen : (Spec.blocks (Spec.padWith (((start M m).nobits
      + 8 * (start M m).infile.length) % 2 ^ 64) (start M m).infile)).length
      = (m.length + 8) / 64 + 1 := by
    rw [blocks_length, padWith_length]
    show 64 * ((m.length + 8) / 64 + 1) / 64 = _
    omega
  obtain ⟨a, b⟩ := wireBlocks_calls le fuel _ _ hw
  refine ⟨_, hw, hlen, ?_, ?_, a, b, hashLoop_nexthash le fuel (start M m) H0 _ hM hw, ?_⟩
  · intro h; rw [hlen]; omega
  · intro h; rw [hlen]; omega
  · intro f hf'
    exact hashLoop_short_fuel le f _ _ (fun k hk => a k (by omega))

/-- Witness of C18: a file of 60 bytes takes two blocks. -/
theorem driver_terminates_witness :
    (List.replicate 64 (0 : Byte)).length = 64
    ∧ ((List.replicate 60 (0x61 : Byte)).length + 8) / 64 + 2 ≤ 3
    ∧ ∃ bs, wireBlocks false 3 (start (List.replicate 64 0) (List.replicate 60 0x61)) = some bs
      ∧ bs.length = ((List.replicate 60 (0x61 : Byte)).length + 8) / 64 + 1 :=
  ⟨by decide, by decide,
    (driver_terminates false (List.replicate 64 0) (List.replicate 60 0x61) 3 (by decide)
      (by decide)).imp (fun _ h => ⟨h.1, h.2.1⟩)⟩

/-! ## Length extension -/

theorem blocks_prefix (k : Nat) :
    ∀ P x : List Byte, P.length = 64 * k → Spec.blocks (P ++ x) = Spec.blocks P ++ Spec.blocks x := by
  induction k with
  | zero =>
    intro P x hP
    have : P = [] := List.length_eq_zero.mp (by omega)
    subst this
    simp [blocks_short]
  | succ k ih =>
    intro P x hP
    have h1 : (P.take 64).length = 64 := by rw [List.length_take]; omega
    have h2 : (P.drop 64).length = 64 * k := by rw [List.length_drop]; omega
    conv_lhs => rw [← List.take_append_drop 64 P, List.append_assoc]
    rw [blocks_append _ _ h1, ih _ x h2]
    conv_rhs => rw [← List.take_append_drop 64 P, blocks_append _ _ h1]
    simp only [List.take_append_drop, List.cons_append]

theorem padWith_prefix (bits : Nat) (k : Nat) :
    ∀ P x : List Byte, P.length = 64 * k →
      Spec.padWith bits (P ++ x) = P ++ Spec.padWith bits x := by
  intro P x hP
  have hz : Spec.zeros (P ++ x).length = Spec.zeros x.length := by
    simp only [Spec.zeros, List.length_append]
    congr 2; omega
  simp only [Spec.padWith, hz, List.append_assoc]

/-- C20: length extension.  For a message `m` and a suffix `x` with
`|m| + |x| + 72 < 2 ^ 61`, and `p` the padding the framer appends to `m`, the final hash
state for `m ++ p ++ x` is the one reached from the final hash state for `m` by folding
`nexthash` over the blocks the framer hands out for `x` when its bit counter starts at
`8 * |m ++ p|` in phase `READ`. -/
theorem length_extension (le : Bool) (M1 M2 M3 m x : List Byte) (f1 f2 f3 : Nat)
    (hM1 : M1.length = 64) (hM2 : M2.length = 64) (hM3 : M3.length = 64)
    (hlen : m.length + x.length + 72 < 2 ^ 61)
    (hf1 : (m.length + 8) / 64 + 2 ≤ f1) (hf2 : (x.length + 8) / 64 + 2 ≤ f2)
    (hf3 : ((Spec.pad m ++ x).length + 8) / 64 + 2 ≤ f3) :
    ∃ Hm, finalHash le M1 m f1 = some Hm
      ∧ (hashLoop le f2 { M := M2, infile := x, nobits := 8 * (Spec.pad m).length,
                          status := PADFLAG.READ } Hm).map Prod.snd
          = finalHash le M3 (Spec.pad m ++ x) f3
      ∧ Spec.pad m = m ++ ([0x80] ++ List.replicate (Spec.zeros m.length) 0
                            ++ Spec.be64 (8 * m.length))
      ∧ (Spec.pad m).length = 64 * ((m.length + 8) / 64 + 1) := by
  have hpl : (Spec.pad m).length = 64 * ((m.length + 8) / 64 + 1) := padWith_length _ _
  have hm : m.length < 2 ^ 61 := by omega
  have hpx : (Spec.pad m ++ x).length < 2 ^ 61 := by
    rw [List.length_append, hpl]; omega
  refine ⟨_, finalHash_nexthash le M1 m f1 hM1 hm hf1, ?_, ?_, hpl⟩
  · rw [finalHash_nexthash le M3 (Spec.pad m ++ x) f3 hM3 hpx hf3]
    have hw := wireBlocks_read le f2
      (Framer.mk M2 x (8 * (Spec.pad m).length) PADFLAG.READ) rfl hM2 hf2
    rw [hashLoop_nexthash le f2 _ _ _ hM2 hw]
    have hb : ((8 * (Spec.pad m).length + 8 * x.length) % 2 ^ 64)
        = 8 * (Spec.pad m ++ x).length := by
      rw [List.length_append]; rw [List.length_append] at hpx; omega
    have e : Spec.blocks (Spec.pad (Spec.pad m ++ x))
        = Spec.blocks (Spec.pad m)
          ++ Spec.blocks (Spec.padWith (8 * (Spec.pad m ++ x).length) x) := by
      conv_lhs => rw [Spec.pad, padWith_prefix _ _ _ x hpl, blocks_prefix _ _ _ hpl]
    rw [e, List.foldl_append]
    show some (List.foldl _ _ (Spec.blocks (Spec.padWith
      ((8 * (Spec.pad m).length + 8 * x.length) % 2 ^ 64) x))) = _
    rw [hb]
  · simp only [Spec.pad, Spec.padWith, List.append_assoc]

/-- Witness of C20: the message `abc` extended by `d`. -/
theorem length_extension_witness :
    (List.replicate 64 (0 : Byte)).length = 64
    ∧ ([0x61, 0x62, 0x63] : List Byte).length + ([0x64] : List Byte).length + 72 < 2 ^ 61
    ∧ (([0x61, 0x62, 0x63] : List Byte).length + 8) / 64 + 2 ≤ 2
    ∧ (([0x64] : List Byte).length + 8) / 64 + 2 ≤ 2
    ∧ ((Spec.pad [0x61, 0x62, 0x63] ++ [0x64]).length + 8) / 64 + 2 ≤ 3
    ∧ ∃ Hm, finalHash true (List.replicate 64 0) [0x61, 0x62, 0x63] 2 = some Hm
      ∧ (hashLoop true 2 { M := List.replicate 64 0, infile := [0x64],
                           nobits := 8 * (Spec.pad [0x61, 0x62, 0x63]).length,
                           status := PADFLAG.READ } Hm).map Prod.snd
          = finalHash true (List.replicate 64 0) (Spec.pad [0x61, 0x62, 0x63] ++ [0x64]) 3 :=
  ⟨by decide, by decide, by decide, by decide, by decide,
    (length_extension true (List.replicate 64 0) (List.replicate 64 0) (List.replicate 64 0)
      [0x61, 0x62, 0x63] [0x64] 2 2 3 (by decide) (by decide) (by decide) (by decide)
      (by decide) (by decide) (by decide)).imp (fun _ h => ⟨h.1, h.2.1⟩)⟩

/-! ## Short reads -/

theorem nextblockShort_other (le : Bool) (k : Nat) (s : Framer) (hs : s.status ≠ PADFLAG.READ) :
    nextblockShort le k s = nextblock le s := by
  cases h : s.status with
  | READ => exact absurd h hs
  | PAD0 => simp only [nextblockShort, nextblockSwitchShort, nextblock, nextblockSwitch, h]
  | FINISH => simp only [nextblockShort, nextblockSwitchShort, nextblock, nextblockSwitch, h]

theorem nextblockShort_full (le : Bool) (s : Framer) : nextblockShort le 64 s = nextblock le s := by
  cases h : s.status with
  | READ =>
    simp only [nextblockShort, nextblockSwitchShort, nextblock, nextblockSwitch, h, min_self]
  | PAD0 => exact nextblockShort_other le 64 s (by simp [h])
  | FINISH => exact nextblockShort_other le 64 s (by simp [h])

theorem hashLoopShort_nil (le : Bool) (fuel : Nat) :
    ∀ (s : Framer) (H : List Nat), hashLoopShort le fuel [] s H = hashLoop le fuel s H := by
  induction fuel with
  | zero => intro s H; rfl
  | succ fuel ih =>
    intro s H
    simp only [hashLoopShort, hashLoop, List.headD_nil, List.tail_nil, ite_self,
      nextblockShort_full, ih]

theorem hashLoop_finish (le : Bool) (fuel : Nat) (s : Framer) (H : List Nat)
    (hs : s.status = PADFLAG.FINISH) :
    (hashLoop le fuel s H).map Prod.snd = if fuel = 0 then none else some H := by
  cases fuel with
  | zero => rfl
  | succ fuel => simp [hashLoop, nextblock_finish le s hs]

theorem nextblock_pad0_block (le : Bool) (s : Framer) (hs : s.status = PADFLAG.PAD0) :
    (nextblock le s).2.M
      = toHostLoop le (store64 le (zeroLoop s.M 0 56) 7 (htobe64 le s.nobits)) := by
  have hsw : nextblockSwitch le s = some
      { s with M := store64 le (zeroLoop s.M 0 56) 7 (htobe64 le s.nobits),
               status := PADFLAG.FINISH } := by
    simp only [nextblockSwitch, hs]
  exact (nextblock_after le s _ hsw).2.1

/-- Outside phase `READ` the result of the loop depends on the block, the counter and
the phase only. -/
theorem hashLoop_alike (le : Bool) (fuel : Nat) (s1 s2 : Framer) (H : List Nat)
    (hM : s1.M = s2.M) (hn : s1.nobits = s2.nobits) (hst : s1.status = s2.status)
    (hs : s1.status ≠ PADFLAG.READ) :
    (hashLoop le fuel s1 H).map Prod.snd = (hashLoop le fuel s2 H).map Prod.snd := by
  cases h : s1.status with
  | READ => exact absurd h hs
  | FINISH =>
    rw [hashLoop_finish le fuel s1 H h, hashLoop_finish le fuel s2 H (hst ▸ h)]
  | PAD0 =>
    have h2 : s2.status = PADFLAG.PAD0 := hst ▸ h
    cases fuel with
    | zero => rfl
    | succ fuel =>
      obtain ⟨a1, _, _, d1⟩ := nextblock_pad0 le s1 h
      obtain ⟨a2, _, _, d2⟩ := nextblock_pad0 le s2 h2
      simp only [hashLoop, a1, a2, one_ne_zero, if_false]
      rw [hashLoop_finish le fuel _ _ d1, hashLoop_finish le fuel _ _ d2,
        nextblock_pad0_block le s1 h, nextblock_pad0_block le s2 h2, hM, hn]

theorem hashLoopShort_other (le : Bool) (fuel : Nat) :
    ∀ (sched : List Nat) (s : Framer) (H : List Nat), s.status ≠ PADFLAG.READ →
      hashLoopShort le fuel sched s H = hashLoop le fuel s H := by
  induction fuel with
  | zero => intro _ s H _; rfl
  | succ fuel ih =>
    intro sched s H hs
    have hnext : (nextblock le s).2.status ≠ PADFLAG.READ := by
      cases h : s.status with
      | READ => exact absurd h hs
      | PAD0 => rw [(nextblock_pad0 le s h).2.2.2]; decide
      | FINISH => rw [nextblock_finish le s h, h]; decide
    simp only [hashLoopShort, hashLoop, nextblockShort_other le _ s hs, hs, if_false]
    rw [ih _ _ _ hnext]

theorem switchShort_read (le : Bool) (k : Nat) (s : Framer) (hs : s.status = PADFLAG.READ) :
    nextblockSwitchShort le k s = some (readCase le (fread s.M (min 64 k) s.infile).2.1
      (fread s.M (min 64 k) s.infile).1 (fread s.M (min 64 k) s.infile).2.2 s.nobits) := by
  simp only [nextblockSwitchShort, hs]

theorem nextblockShort_after (le : Bool) (k : Nat) (s w : Framer)
    (h : nextblockSwitchShort le k s = some w) :
    (nextblockShort le k s).1 = 1 ∧ (nextblockShort le k s).2.M = toHostLoop le w.M ∧
    (nextblockShort le k s).2.infile = w.infile ∧ (nextblockShort le k s).2.nobits = w.nobits ∧
    (nextblockShort le k s).2.status = w.status := by
  simp only [nextblockShort, h, and_self]

theorem readCase_block (le : Bool) (M : List Byte) (n : Nat) (f f' : List Byte) (b : Nat) :
    (readCase le M n f b).M = (readCase le M n f' b).M := by
  simp only [readCase]
  split_ifs <;> rfl

theorem readUntilShort_length (sched : List Nat) :
    ∀ file : List Byte, (readUntilShort sched file).length ≤ file.length := by
  induction sched with
  | nil => intro file; exact le_refl _
  | cons k sched ih =>
    intro file
    simp only [readUntilShort]
    split_ifs with h
    · simp only [List.length_take]; omega
    · have := ih (file.drop 64)
      simp only [List.length_append, List.length_take, List.length_drop] at this ⊢
      omega

theorem readUntilShort_full (sched : List Nat) (hk : ∀ k ∈ sched, 64 ≤ k) :
    ∀ file : List Byte, readUntilShort sched file = file := by
  induction sched with
  | nil => intro file; rfl
  | cons k sched ih =>
    intro file
    have h64 : min 64 k = 64 := by
      have := hk k (List.mem_cons_self _ _); omega
    simp only [readUntilShort, h64]
    split_ifs with h
    · simp only [List.length_take] at h
      exact List.take_of_length_le (by omega)
    · rw [ih (fun k' hk' => hk k' (List.mem_cons_of_mem _ hk')), List.take_append_drop]

/-- With short reads the loop of `main` hashes the file up to and including the first
read that delivers fewer than 64 bytes. -/
theorem hashLoopShort_eq (le : Bool) (fuel : Nat) :
    ∀ (sched : List Nat) (s s2 : Framer) (H : List Nat), s.status = PADFLAG.READ →
      s2.M = s.M → s2.nobits = s.nobits → s2.status = s.status →
      s2.infile = readUntilShort sched s.infile →
      (hashLoopShort le fuel sched s H).map Prod.snd = (hashLoop le fuel s2 H).map Prod.snd := by
  induction fuel with
  | zero => intro _ _ _ _ _ _ _ _ _; rfl
  | succ fuel ih =>
    intro sched s s2 H hs hM hn hst hin
    have hs2 : s2.status = PADFLAG.READ := hst.trans hs
    cases sched with
    | nil =>
      have : s2 = s := by
        cases s; cases s2
        simp only [readUntilShort] at hin
        simp only at hM hn hst
        subst hM hn hst hin
        rfl
      rw [hashLoopShort_nil, this]
    | cons k sched =>
      obtain ⟨a1, b1, c1, d1, e1⟩ := nextblockShort_after le k s _ (switchShort_read le k s hs)
      obtain ⟨a2, b2, c2, d2, e2⟩ := nextblock_after le s2 _ (switch_read le s2 hs2)
      obtain ⟨f1, f2, f3⟩ := readCase_fields le (fread s.M (min 64 k) s.infile).2.1
        (fread s.M (min 64 k) s.infile).1 (fread s.M (min 64 k) s.infile).2.2 s.nobits
      obtain ⟨g1, g2, g3⟩ := readCase_fields le (fread s2.M 64 s2.infile).2.1
        (fread s2.M 64 s2.infile).1 (fread s2.M 64 s2.infile).2.2 s2.nobits
      rw [f1] at c1; rw [f2] at d1; rw [f3] at e1
      rw [g1] at c2; rw [g2] at d2; rw [g3] at e2
      simp only [readUntilShort] at hin
      have key : fread s2.M 64 s2.infile
          = ((fread s.M (min 64 k) s.infile).1, (fread s.M (min 64 k) s.infile).2.1,
              s2.infile.drop 64) := by
        rw [hM]
        by_cases h : (s.infile.take (min 64 k)).length < 64
        · rw [if_pos h] at hin
          have t : s2.infile.take 64 = s.infile.take (min 64 k) := by
            rw [hin]; exact List.take_of_length_le (by omega)
          simp only [fread, t]
        · rw [if_neg h] at hin
          have hl : (s.infile.take 64).length = 64 := by
            simp only [List.length_take] at h ⊢; omega
          have h64 : min 64 k = 64 := by
            simp only [List.length_take] at h; omega
          have t : s2.infile.take 64 = s.infile.take 64 := by
            rw [hin]; exact List.take_left' hl
          simp only [fread, t, h64]
      have kM : (nextblock le s2).2.M = (nextblockShort le k s).2.M := by
        rw [b1, b2, key, hn]
        exact congrArg (toHostLoop le) (readCase_block le _ _ _ _ _)
      have k1 : (fread s2.M 64 s2.infile).1 = (fread s.M (min 64 k) s.infile).1 := by rw [key]
      have kn : (nextblock le s2).2.nobits = (nextblockShort le k s).2.nobits := by
        rw [d1, d2, k1, hn]
      have kst : (nextblock le s2).2.status = (nextblockShort le k s).2.status := by
        rw [e1, e2, k1]
      simp only [hashLoopShort, hashLoop, a1, a2, one_ne_zero, if_false, List.headD_cons, hs,
        if_true, List.tail_cons, kM]
      by_cases h : (fread s.M (min 64 k) s.infile).1 < 64
      · have hne : (nextblockShort le k s).2.status ≠ PADFLAG.READ := by
          rw [e1]; split_ifs <;> decide
        rw [hashLoopShort_other le fuel _ _ _ hne]
        exact hashLoop_alike le fuel _ _ _ kM.symm kn.symm kst.symm hne
      · have hr : (nextblockShort le k s).2.status = PADFLAG.READ := by
          rw [e1]; split_ifs <;> first | rfl | omega
        have hl : ¬ (s.infile.take (min 64 k)).length < 64 := h
        rw [if_neg hl] at hin
        have hl64 : (s.infile.take 64).length = 64 := by
          simp only [List.length_take] at hl ⊢; omega
        have h64 : min 64 k = 64 := by
          simp only [List.length_take] at hl; omega
        apply ih sched _ _ _ hr kM kn kst
        rw [c1, c2]
        have : (fread s2.M 64 s2.infile).2.2 = s2.infile.drop 64 := rfl
        rw [this, hin, List.drop_left' hl64]
        simp only [fread, h64]

set_option maxRecDepth 100000 in
/-- C16 as the specification states it fails: when the first read of the two-byte file
`ab` delivers one byte, the loop hashes `a` alone, and the digest is not that of `ab`. -/
theorem short_read_changes_digest_counterexample :
    (hashLoopShort true 3 [1, 1] (start (List.replicate 64 0) [0x61, 0x62]) H0).map Prod.snd
      = finalHash true (List.replicate 64 0) [0x61] 3
    ∧ (hashLoopShort true 3 [1, 1] (start (List.replicate 64 0) [0x61, 0x62]) H0).map Prod.snd
      ≠ finalHash true (List.replicate 64 0) [0x61, 0x62] 3
    ∧ (finalHash true (List.replicate 64 0) [0x61, 0x62] 3).isSome = true := by
  refine ⟨?_, ?_, ?_⟩ <;> decide

/-- C16, amended: for every byte sequence and every way its reads come up short, the
digest is the one that full reads produce for the bytes delivered up to and including
the first read of fewer than 64 bytes; it is the digest of the whole sequence when every
read before the end delivers the 64 bytes requested. -/
theorem short_read_ends_input (le : Bool) (M file : List Byte) (sched : List Nat) (fuel : Nat)
    (hM : M.length = 64) (hf : (file.length + 8) / 64 + 2 ≤ fuel) :
    (hashLoopShort le fuel sched (start M file) H0).map Prod.snd
      = finalHash le M (readUntilShort sched file) fuel
    ∧ (∃ H, finalHash le M (readUntilShort sched file) fuel = some H)
    ∧ ((∀ k ∈ sched, 64 ≤ k) →
        (hashLoopShort le fuel sched (start M file) H0).map Prod.snd
          = finalHash le M file fuel) := by
  have h1 := hashLoopShort_eq le fuel sched (start M file)
    (start M (readUntilShort sched file)) H0 rfl rfl rfl rfl rfl
  have hlen := readUntilShort_length sched file
  obtain ⟨H, hH, _⟩ := finalHash_ok le M (readUntilShort sched file) fuel hM (by omega)
  refine ⟨h1, ⟨H, hH⟩, ?_⟩
  intro hk
  rw [h1, readUntilShort_full sched hk file]
  rfl

/-- Witness of C16 (amended): a file of 100 bytes read in full. -/
theorem short_read_ends_input_witness :
    (List.replicate 64 (0 : Byte)).length = 64
    ∧ ((List.replicate 100 (0x61 : Byte)).length + 8) / 64 + 2 ≤ 3
    ∧ (∀ k ∈ [64, 64], 64 ≤ k)
    ∧ (hashLoopShort true 3 [64, 64] (start (List.replicate 64 0) (List.replicate 100 0x61))
          H0).map Prod.snd
        = finalHash true (List.replicate 64 0) (List.replicate 100 0x61) 3 :=
  ⟨by decide, by decide, by decide,
    (short_read_ends_input true (List.replicate 64 0) (List.replicate 100 0x61) [64, 64] 3
      (by decide) (by decide)).2.2 (by decide)⟩

/-! ## No access outside an array -/

theorem foldlM_checked {α β : Type} (P : β → Prop) (f : β → α → β) (g : β → α → Option β) :
    ∀ (l : List α) (b : β), P b →
      (∀ b a, a ∈ l → P b → g b a = some (f b a) ∧ P (f b a)) →
      l.foldlM g b = some (l.foldl f b) ∧ P (l.foldl f b) := by
  intro l
  induction l with
  | nil => intro b hb _; exact ⟨rfl, hb⟩
  | cons a l ih =>
    intro b hb h
    obtain ⟨h1, h2⟩ := h b a (List.mem_cons_self _ _) hb
    rw [List.foldlM_cons, h1, List.foldl_cons]
    exact ih (f b a) h2 (fun b' a' ha' hb' => h b' a' (List.mem_cons_of_mem _ ha') hb')

theorem readAt_nat {α : Type} (a : List α) (n : Nat) (d : α) (h : n < a.length) :
    readAt a (n : Int) = some (a.getD n d) := by
  simp only [readAt, Int.natCast_nonneg, if_true, Int.toNat_ofNat]
  rw [List.getD_eq_getElem?_getD, List.getElem?_eq_getElem h]
  rfl

theorem readAt_sub {α : Type} (a : List α) (n k : Nat) (d : α) (hk : k ≤ n)
    (h : n - k < a.length) : readAt a ((n : Int) - (k : Int)) = some (a.getD (n - k) d) := by
  have : (n : Int) - (k : Int) = ((n - k : Nat) : Int) := by omega
  rw [this]; exact readAt_nat a (n - k) d h

theorem writeAt_nat {α : Type} (a : List α) (n : Nat) (v : α) (h : n < a.length) :
    writeAt a (n : Int) v = some (a.set n v) := by
  simp only [writeAt, Int.natCast_nonneg, Int.toNat_ofNat, h, and_self, if_true]

theorem copyStepChecked_eq (M W : List Nat) (t : Nat) (hM : t < M.length) (hW : t < W.length) :
    copyStepChecked M W t = some (copyStep M W t) := by
  simp only [copyStepChecked, copyStep, readAt_nat M t 0 hM, Option.bind_eq_bind,
    Option.some_bind, writeAt_nat W t _ hW]

theorem schedStepChecked_eq (W : List Nat) (t : Nat) (h16 : 16 ≤ t) (hW : t < W.length) :
    schedStepChecked W t = some (schedStep W t) := by
  have e2 := readAt_sub W t 2 0 (by omega) (by omega)
  have e7 := readAt_sub W t 7 0 (by omega) (by omega)
  have e15 := readAt_sub W t 15 0 (by omega) (by omega)
  have e16 := readAt_sub W t 16 0 (by omega) (by omega)
  simp only [Nat.cast_ofNat] at e2 e7 e15 e16
  simp only [schedStepChecked, schedStep, e2, e7, e15, e16, Option.bind_eq_bind,
    Option.some_bind, writeAt_nat W t _ hW]

theorem K_length : K.length = 64 := by decide

theorem roundStepChecked_eq (W : List Nat) (v : Vars) (t : Nat) (ht : t < 64)
    (hW : W.length = 64) : roundStepChecked W v t = some (roundStep W v t) := by
  simp only [roundStepChecked, roundStep, readAt_nat K t 0 (by rw [K_length]; exact ht),
    readAt_nat W t 0 (by omega), Option.bind_eq_bind, Option.some_bind, Option.pure_def]

theorem addAt_eq (H : List Nat) (n : Nat) (x : Nat) (h : n < H.length) :
    addAt H (n : Int) x = some (H.set n (u32 (H.getD n 0 + x))) := by
  simp only [addAt, readAt_nat H n 0 h, Option.bind_eq_bind, Option.some_bind,
    writeAt_nat H n _ h]

theorem eight_words (l : List Nat) (h : l.length = 8) :
    ∃ a b c d e f g i, l = [a, b, c, d, e, f, g, i] := by
  match l, h with
  | [a, b, c, d, e, f, g, i], _ => exact ⟨a, b, c, d, e, f, g, i, rfl⟩

theorem scheduleChecked_eq (M : List Nat) (hM : M.length = 16) :
    scheduleChecked M = some (schedule M) ∧ (schedule M).length = 64 := by
  obtain ⟨c1, c2⟩ := foldlM_checked (fun W : List Nat => W.length = 64) (copyStep M)
    (copyStepChecked M) (List.range 16) (List.replicate 64 0) (List.length_replicate _ _)
    (fun W t ht hW => ⟨copyStepChecked_eq M W t (by rw [hM]; exact List.mem_range.mp ht)
        (by rw [hW]; have := List.mem_range.mp ht; omega),
      by simp only [copyStep, List.length_set]; exact hW⟩)
  obtain ⟨s1, s2⟩ := foldlM_checked (fun W : List Nat => W.length = 64) schedStep
    schedStepChecked (List.range' 16 48) _ c2
    (fun W t ht hW => by
      have ht' := List.mem_range'_1.mp ht
      exact ⟨schedStepChecked_eq W t ht'.1 (by omega),
        by simp only [schedStep, List.length_set]; exact hW⟩)
  refine ⟨?_, s2⟩
  rw [scheduleChecked, c1, Option.some_bind, s1]
  rfl

theorem loadVarsChecked_eq (H : List Nat) (hH : H.length = 8) :
    loadVarsChecked H = some (loadVars H) := by
  obtain ⟨a, b, c, d, e, f, g, i, rfl⟩ := eight_words H hH
  rfl

theorem addVarsChecked_eq (H : List Nat) (v : Vars) (hH : H.length = 8) :
    addVarsChecked H v = some (addVars H v) := by
  obtain ⟨a, b, c, d, e, f, g, i, rfl⟩ := eight_words H hH
  rfl

/-- Every array access of `nexthash` is inside its array. -/
theorem nexthashChecked_eq (M H : List Nat) (hH : H.length = 8) (hM : M.length = 16) :
    nexthashChecked M H = some (nexthash M H) := by
  obtain ⟨s1, s2⟩ := scheduleChecked_eq M hM
  obtain ⟨r1, _⟩ := foldlM_checked (fun _ : Vars => True) (roundStep (schedule M))
    (roundStepChecked (schedule M)) (List.range 64) (loadVars H) trivial
    (fun v t ht _ => ⟨roundStepChecked_eq _ v t (List.mem_range.mp ht) s2, trivial⟩)
  rw [nexthashChecked, s1, Option.some_bind, loadVarsChecked_eq H hH, Option.some_bind, r1,
    Option.some_bind, addVarsChecked_eq H _ hH, nexthash]

theorem zeroLoopChecked_eq (M : List Byte) (lo hi : Nat) (h : hi ≤ M.length) :
    zeroLoopChecked M lo hi = some (zeroLoop M lo hi)
    ∧ (zeroLoop M lo hi).length = M.length := by
  unfold zeroLoopChecked zeroLoop
  exact foldlM_checked (fun B : List Byte => B.length = M.length) (fun B i => B.set i 0)
    (fun B (i : Nat) => writeAt B (i : Int) 0) (List.range' lo (hi - lo)) M rfl
    (fun B i hi' hB => by
      have := List.mem_range'_1.mp hi'
      have hB' : B.length = M.length := hB
      exact ⟨writeAt_nat B i 0 (by omega),
        show (B.set i 0).length = M.length by rw [List.length_set]; exact hB'⟩)

theorem toHostLoopChecked_eq (le : Bool) (M : List Byte) (h : M.length = 64) :
    toHostLoopChecked le M = some (toHostLoop le M) := by
  unfold toHostLoopChecked toHostLoop
  exact (foldlM_checked (fun B : List Byte => B.length = 64)
    (fun B i => store32 le B i (be32toh le (load32 le B i)))
    (fun B i => (load32Checked le B i).bind (fun x => store32Checked le B i (be32toh le x)))
    (List.range 16) M h
    (fun B i hi hB => by
      have hB' : B.length = 64 := hB
      have hi' : 4 * i + 4 ≤ B.length := by have := List.mem_range.mp hi; omega
      refine ⟨?_, ?_⟩
      · simp only [load32Checked, store32Checked, hi', if_true, Option.some_bind]
      · show (store32 le B i (be32toh le (load32 le B i))).length = 64
        rw [store32_length le B i _ hi']; exact hB')).1

theorem store64Checked_last (le : Bool) (M : List Byte) (x : Nat) (h : M.length = 64) :
    store64Checked le M 7 x = some (store64 le M 7 x) := by
  simp only [store64Checked, h, Nat.le_refl, if_true]

theorem readCaseChecked_eq (le : Bool) (M : List Byte) (n : Nat) (f : List Byte) (b : Nat)
    (hM : M.length = 64) : readCaseChecked le M n f b = some (readCase le M n f b) := by
  simp only [readCaseChecked, readCase]
  by_cases h56 : n < 56
  · obtain ⟨z1, z2⟩ := zeroLoopChecked_eq (M.set n 0x80) (n + 1) 56
      (by rw [List.length_set]; omega)
    rw [List.length_set] at z2
    simp only [h56, if_true, writeAt_nat M n _ (by omega : n < M.length), Option.bind_eq_bind,
      Option.some_bind, z1, store64Checked_last le _ _ (z2.trans hM), Option.pure_def]
  · by_cases h64 : n < 64
    · obtain ⟨z1, _⟩ := zeroLoopChecked_eq (M.set n 0x80) (n + 1) 64
        (by rw [List.length_set]; omega)
      simp only [h56, h64, if_true, if_false, writeAt_nat M n _ (by omega : n < M.length),
        Option.bind_eq_bind, Option.some_bind, z1, Option.pure_def]
    · simp only [h56, h64, if_false, Option.pure_def]

theorem fread_length (M f : List Byte) (hM : M.length = 64) :
    (fread M 64 f).2.1.length = 64 := by
  simp only [fread, List.length_append, List.length_take, List.length_drop]
  omega

/-- Every access of `nextblock` to its block is inside the block. -/
theorem nextblockChecked_eq (le : Bool) (s : Framer) (hM : s.M.length = 64) :
    nextblockChecked le s = some (nextblock le s) := by
  cases hs : s.status with
  | FINISH =>
    rw [nextblock_finish le s hs]
    simp only [nextblockChecked, hs]
  | PAD0 =>
    have hsw : nextblockSwitch le s = some
        { s with M := store64 le (zeroLoop s.M 0 56) 7 (htobe64 le s.nobits),
                 status := PADFLAG.FINISH } := by
      simp only [nextblockSwitch, hs]
    have hl := switch_length le s _ hM hsw
    obtain ⟨z1, z2⟩ := zeroLoopChecked_eq s.M 0 56 (by omega)
    simp only [nextblockChecked, hs, z1, Option.bind_eq_bind, Option.some_bind,
      store64Checked_last le _ _ (z2.trans hM), toHostLoopChecked_eq le _ hl, Option.pure_def,
      nextblock, hsw]
  | READ =>
    have hsw := switch_read le s hs
    have hl := switch_length le s _ hM hsw
    have hf : freadChecked s.M 64 s.infile = some (fread s.M 64 s.infile) := by
      simp only [freadChecked, hM, Nat.le_refl, if_true]
    simp only [nextblockChecked, hs, hf, Option.bind_eq_bind, Option.some_bind,
      readCaseChecked_eq le _ _ _ _ (fread_length s.M s.infile hM),
      toHostLoopChecked_eq le _ hl, Option.pure_def, nextblock, hsw]

/-- C19: every array access of `nexthash` and `nextblock` is in bounds for every input:
with all accesses checked, `nexthash` on an 8-word state and a 16-word block, and
`nextblock` on a 64-byte block, never fail and give the unchecked results; `K` has
exactly 64 entries, `sixfour[7]` is bytes 56 .. 63 of the block, and in both padding
branches the index of the `0x80` marker is at most 63. -/
theorem accesses_in_bounds (le : Bool) (M H : List Nat) (s : Framer) (hH : H.length = 8)
    (hM : M.length = 16) (hs : s.M.length = 64) :
    nexthashChecked M H = some (nexthash M H)
    ∧ K.length = 64
    ∧ nextblockChecked le s = some (nextblock le s)
    ∧ (8 * 7 = 56 ∧ 8 * 7 + 8 = s.M.length)
    ∧ (fread s.M 64 s.infile).1 ≤ 64
    ∧ (s.status = PADFLAG.READ → (nextblock le s).2.status ≠ PADFLAG.READ →
        (fread s.M 64 s.infile).1 ≤ 63) := by
  refine ⟨nexthashChecked_eq M H hH hM, K_length, nextblockChecked_eq le s hs,
    ⟨rfl, by rw [hs]⟩, ?_, ?_⟩
  · rw [(fread_count s.M s.infile).2.2]; omega
  · intro h hne
    rw [(fread_count s.M s.infile).2.2]
    by_contra hc
    apply hne
    rw [(nextblock_read le s h).2.2]
    have h1 : ¬ s.infile.length < 64 := by omega
    have h2 : ¬ s.infile.length < 56 := by omega
    simp only [h1, h2, if_false]

/-- Witness of C19: the initial hash value, the block of the empty message, and the
first call on a file of 60 bytes. -/
theorem accesses_in_bounds_witness :
    H0.length = 8
    ∧ ([0x80000000, 0, 0, 0, 0, 0, 0, 0, 0, 0, 0, 0, 0, 0, 0, 0] : List Nat).length = 16
    ∧ (start (List.replicate 64 0) (List.replicate 60 0x61)).M.length = 64
    ∧ (start (List.replicate 64 0) (List.replicate 60 0x61)).status = PADFLAG.READ
    ∧ (nextblock true (start (List.replicate 64 0) (List.replicate 60 0x61))).2.status
        ≠ PADFLAG.READ
    ∧ nexthashChecked [0x80000000, 0, 0, 0, 0, 0, 0, 0, 0, 0, 0, 0, 0, 0, 0, 0] H0
        = some (nexthash [0x80000000, 0, 0, 0, 0, 0, 0, 0, 0, 0, 0, 0, 0, 0, 0, 0] H0)
    ∧ (fread (start (List.replicate 64 0) (List.replicate 60 0x61)).M 64
        (start (List.replicate 64 0) (List.replicate 60 0x61)).infile).1 ≤ 63 :=
  ⟨by decide, by decide, by decide, by decide, by decide,
    (accesses_in_bounds true [0x80000000, 0, 0, 0, 0, 0, 0, 0, 0, 0, 0, 0, 0, 0, 0, 0] H0
      (start (List.replicate 64 0) (List.replicate 60 0x61)) (by decide) (by decide)
      (by decide)).1,
    (accesses_in_bounds true [0x80000000, 0, 0, 0, 0, 0, 0, 0, 0, 0, 0, 0, 0, 0, 0, 0] H0
      (start (List.replicate 64 0) (List.replicate 60 0x61)) (by decide) (by decide)
      (by decide)).2.2.2.2.2 (by decide) (by decide)⟩

/-! ## The constants -/

/-- The first 32 bits of the fractional part of a cube root, from integer bounds. -/
theorem fract_cbrt_bits (p c n : ℕ) (hc : c ^ 3 ≤ p) (hc' : p < (c + 1) ^ 3)
    (hn : n ^ 3 ≤ p * 2 ^ 96) (hn' : p * 2 ^ 96 < (n + 1) ^ 3) :
    ⌊(2 : ℝ) ^ 32 * Int.fract ((p : ℝ) ^ ((1 : ℝ) / 3))⌋ = (n : ℤ) - 2 ^ 32 * (c : ℤ) := by
  have hx0 : (0 : ℝ) ≤ (p : ℝ) ^ ((1 : ℝ) / 3) := Real.rpow_nonneg (Nat.cast_nonneg p) _
  have hx3 : ((p : ℝ) ^ ((1 : ℝ) / 3)) ^ 3 = (p : ℝ) := by
    rw [← Real.rpow_natCast, ← Real.rpow_mul (Nat.cast_nonneg p)]
    norm_num
  generalize (p : ℝ) ^ ((1 : ℝ) / 3) = x at hx0 hx3
  have h1 : ((c : ℝ)) ^ 3 ≤ x ^ 3 := by rw [hx3]; exact_mod_cast hc
  have h2 : x ^ 3 < ((c : ℝ) + 1) ^ 3 := by rw [hx3]; exact_mod_cast hc'
  have h3 : ((n : ℝ)) ^ 3 ≤ (2 ^ 32 * x) ^ 3 := by
    rw [mul_pow, hx3]
    have : ((n ^ 3 : ℕ) : ℝ) ≤ ((p * 2 ^ 96 : ℕ) : ℝ) := Nat.cast_le.mpr hn
    push_cast at this
    linarith
  have h4 : (2 ^ 32 * x) ^ 3 < ((n : ℝ) + 1) ^ 3 := by
    rw [mul_pow, hx3]
    have : ((p * 2 ^ 96 : ℕ) : ℝ) < (((n + 1) ^ 3 : ℕ) : ℝ) := Nat.cast_lt.mpr hn'
    push_cast at this
    linarith
  have hy0 : (0 : ℝ) ≤ 2 ^ 32 * x := by positivity
  have e1 : (c : ℝ) ≤ x := le_of_pow_le_pow_left₀ (by decide) hx0 h1
  have e2 : x < (c : ℝ) + 1 := lt_of_pow_lt_pow_left₀ 3 (by positivity) h2
  have e3 : (n : ℝ) ≤ 2 ^ 32 * x := le_of_pow_le_pow_left₀ (by decide) hy0 h3
  have e4 : 2 ^ 32 * x < (n : ℝ) + 1 := lt_of_pow_lt_pow_left₀ 3 (by positivity) h4
  have hfl : ⌊x⌋ = (c : ℤ) := by
    rw [Int.floor_eq_iff]
    exact ⟨by exact_mod_cast e1, by exact_mod_cast e2⟩
  rw [Int.floor_eq_iff, Int.fract, hfl]
  push_cast
  constructor <;> linarith

/-- The first 32 bits of the fractional part of a square root, from integer bounds. -/
theorem fract_sqrt_bits (p c n : ℕ) (hc : c ^ 2 ≤ p) (hc' : p < (c + 1) ^ 2)
    (hn : n ^ 2 ≤ p * 2 ^ 64) (hn' : p * 2 ^ 64 < (n + 1) ^ 2) :
    ⌊(2 : ℝ) ^ 32 * Int.fract (Real.sqrt (p : ℝ))⌋ = (n : ℤ) - 2 ^ 32 * (c : ℤ) := by
  have hx0 : (0 : ℝ) ≤ Real.sqrt (p : ℝ) := Real.sqrt_nonneg _
  have hx3 : (Real.sqrt (p : ℝ)) ^ 2 = (p : ℝ) := Real.sq_sqrt (Nat.cast_nonneg p)
  generalize Real.sqrt (p : ℝ) = x at hx0 hx3
  have h1 : ((c : ℝ)) ^ 2 ≤ x ^ 2 := by rw [hx3]; exact_mod_cast hc
  have h2 : x ^ 2 < ((c : ℝ) + 1) ^ 2 := by rw [hx3]; exact_mod_cast hc'
  have h3 : ((n : ℝ)) ^ 2 ≤ (2 ^ 32 * x) ^ 2 := by
    rw [mul_pow, hx3]
    have : ((n ^ 2 : ℕ) : ℝ) ≤ ((p * 2 ^ 64 : ℕ) : ℝ) := Nat.cast_le.mpr hn
    push_cast at this
    linarith
  have h4 : (2 ^ 32 * x) ^ 2 < ((n : ℝ) + 1) ^ 2 := by
    rw [mul_pow, hx3]
    have : ((p * 2 ^ 64 : ℕ) : ℝ) < (((n + 1) ^ 2 : ℕ) : ℝ) := Nat.cast_lt.mpr hn'
    push_cast at this
    linarith
  have hy0 : (0 : ℝ) ≤ 2 ^ 32 * x := by positivity
  have e1 : (c : ℝ) ≤ x := le_of_pow_le_pow_left₀ (by decide) hx0 h1
  have e2 : x < (c : ℝ) + 1 := lt_of_pow_lt_pow_left₀ 2 (by positivity) h2
  have e3 : (n : ℝ) ≤ 2 ^ 32 * x := le_of_pow_le_pow_left₀ (by decide) hy0 h3
  have e4 : 2 ^ 32 * x < (n : ℝ) + 1 := lt_of_pow_lt_pow_left₀ 2 (by positivity) h4
  have hfl : ⌊x⌋ = (c : ℤ) := by
    rw [Int.floor_eq_iff]
    exact ⟨by exact_mod_cast e1, by exact_mod_cast e2⟩
  rw [Int.floor_eq_iff, Int.fract, hfl]
  push_cast
  constructor <;> linarith

theorem isPrime_iff (n : Nat) : Spec.isPrime n = true ↔ Nat.Prime n := by
  rw [Nat.prime_def_lt']
  simp only [Spec.isPrime, Bool.and_eq_true, decide_eq_true_eq, List.all_eq_true,
    List.mem_range, Bool.or_eq_true, ne_eq, Nat.dvd_iff_mod_eq_zero]
  constructor
  · rintro ⟨h2, h⟩
    refine ⟨h2, fun m hm hlt => ?_⟩
    rcases h m hlt with h' | h'
    · omega
    · exact h'
  · rintro ⟨h2, h⟩
    refine ⟨h2, fun m hlt => ?_⟩
    by_cases hm : m < 2
    · exact Or.inl hm
    · exact Or.inr (h m (by omega) hlt)

theorem count_isPrime (n : Nat) :
    Nat.count Nat.Prime n = Nat.count (fun k => Spec.isPrime k = true) n := by
  induction n with
  | zero => rfl
  | succ n ih =>
    rw [Nat.count_succ, Nat.count_succ, ih]
    by_cases h : Nat.Prime n
    · simp [h, (isPrime_iff n).mpr h]
    · have : ¬ Spec.isPrime n = true := fun h' => h ((isPrime_iff n).mp h')
      simp [h, this]

set_option maxRecDepth 1000000 in
theorem primes_table : Spec.primes = [2, 3, 5, 7, 11, 13, 17, 19, 23, 29, 31, 37, 41, 43, 47, 53,
    59, 61, 67, 71, 73, 79, 83, 89, 97, 101, 103, 107, 109, 113, 127, 131, 137, 139, 149, 151,
    157, 163, 167, 173, 179, 181, 191, 193, 197, 199, 211, 223, 227, 229, 233, 239, 241, 251,
    257, 263, 269, 271, 277, 281, 283, 293, 307, 311] := by decide

theorem count_eq_filter (p : Nat → Bool) (N : Nat) :
    Nat.count (fun k => p k = true) N = ((List.range N).filter p).length := by
  induction N with
  | zero => rfl
  | succ N ih =>
    rw [Nat.count_succ, List.range_succ, List.filter_append, List.length_append, ih]
    by_cases h : p N = true
    · simp [h]
    · simp [h]

theorem count_at_filter (p : Nat → Bool) (N : Nat) :
    ∀ i, i < ((List.range N).filter p).length →
      Nat.count (fun k => p k = true) (((List.range N).filter p).getD i 0) = i
      ∧ p (((List.range N).filter p).getD i 0) = true := by
  induction N with
  | zero => intro i hi; simp at hi
  | succ N ih =>
    intro i hi
    rw [List.range_succ, List.filter_append] at hi ⊢
    by_cases h : p N = true
    · have e : List.filter p [N] = [N] := by simp [h]
      rw [e] at hi ⊢
      rw [List.length_append] at hi
      rcases Nat.lt_or_ge i ((List.range N).filter p).length with hlt | hge
      · rw [List.getD_append _ _ _ _ hlt]
        exact ih i hlt
      · have hi' : i = ((List.range N).filter p).length := by
          simp only [List.length_singleton] at hi; omega
        rw [List.getD_append_right _ _ _ _ hge, hi', Nat.sub_self]
        exact ⟨count_eq_filter p N, h⟩
    · have e : List.filter p [N] = [] := by simp [h]
      rw [e, List.append_nil] at hi ⊢
      exact ih i hi

theorem primes_length : Spec.primes.length = 64 := by rw [primes_table]; rfl

/-- The entries of `Spec.primes` are the primes in order of size. -/
theorem nth_prime (i : Nat) (hi : i < 64) : Nat.nth Nat.Prime i = Spec.primes.getD i 0 := by
  obtain ⟨h1, h2⟩ := count_at_filter Spec.isPrime 312 i (by
    have := primes_length; rw [Spec.primes] at this; omega)
  have hp : Nat.Prime (Spec.primes.getD i 0) := (isPrime_iff _).mp h2
  have hc : Nat.count Nat.Prime (Spec.primes.getD i 0) = i := by
    rw [count_isPrime]; exact h1
  have := Nat.nth_count hp
  rw [hc] at this
  exact this

set_option maxRecDepth 1000000 in
theorem K_bounds : ∀ i, i < 64 → ∃ c, c < 8
    ∧ c ^ 3 ≤ Spec.primes.getD i 0 ∧ Spec.primes.getD i 0 < (c + 1) ^ 3
    ∧ (K.getD i 0 + 2 ^ 32 * c) ^ 3 ≤ Spec.primes.getD i 0 * 2 ^ 96
    ∧ Spec.primes.getD i 0 * 2 ^ 96 < (K.getD i 0 + 2 ^ 32 * c + 1) ^ 3 := by
  rw [primes_table]
  decide

set_option maxRecDepth 1000000 in
theorem H0_bounds : ∀ j, j < 8 → ∃ c, c < 8
    ∧ c ^ 2 ≤ Spec.primes.getD j 0 ∧ Spec.primes.getD j 0 < (c + 1) ^ 2
    ∧ (H0.getD j 0 + 2 ^ 32 * c) ^ 2 ≤ Spec.primes.getD j 0 * 2 ^ 64
    ∧ Spec.primes.getD j 0 * 2 ^ 64 < (H0.getD j 0 + 2 ^ 32 * c + 1) ^ 2 := by
  rw [primes_table]
  decide

/-- C15: the constant tables are those of FIPS 180-4.  `K` has exactly 64 entries and
`K[i]` is the first 32 bits of the fractional part of the cube root of the `(i+1)`-th
prime; the initial hash value has exactly 8 words and `H0[j]` is the first 32 bits of the
fractional part of the square root of the `(j+1)`-th prime. -/
theorem constants_are_fips :
    K.length = 64 ∧ H0.length = 8
    ∧ (∀ i, i < 64 →
        ((K.getD i 0 : ℕ) : ℤ)
          = ⌊(2 : ℝ) ^ 32 * Int.fract (((Nat.nth Nat.Prime i : ℕ) : ℝ) ^ ((1 : ℝ) / 3))⌋)
    ∧ (∀ j, j < 8 →
        ((H0.getD j 0 : ℕ) : ℤ)
          = ⌊(2 : ℝ) ^ 32 * Int.fract (Real.sqrt ((Nat.nth Nat.Prime j : ℕ) : ℝ))⌋) := by
  refine ⟨K_length, rfl, ?_, ?_⟩
  · intro i hi
    obtain ⟨c, _, h1, h2, h3, h4⟩ := K_bounds i hi
    rw [nth_prime i hi, fract_cbrt_bits _ c _ h1 h2 h3 h4]
    push_cast
    ring
  · intro j hj
    obtain ⟨c, _, h1, h2, h3, h4⟩ := H0_bounds j hj
    rw [nth_prime j (by omega), fract_sqrt_bits _ c _ h1 h2 h3 h4]
    push_cast
    ring

/-- Witness of C15: the first round constant and the cube root of 2. -/
theorem constants_are_fips_witness :
    (0 : ℕ) < 64
    ∧ ((K.getD 0 0 : ℕ) : ℤ)
        = ⌊(2 : ℝ) ^ 32 * Int.fract (((Nat.nth Nat.Prime 0 : ℕ) : ℝ) ^ ((1 : ℝ) / 3))⌋ :=
  ⟨by decide, constants_are_fips.2.2.1 0 (by decide)⟩

end Sha256
